import Mathlib

/-!
# tinyqr: Givens-rotation QR decomposition (`src/tinyqr.h`)

A shallow embedding of the header-only library `tinyqr`.

* `std::vector<scalar_t>` is a `List α`; every indexed read is `xs[i]?` and
  every indexed write is `write`, so an access outside the vector has no
  result (`none`).
* `scalar_t` is a linearly ordered field `α`; the square root and
  `std::numeric_limits<scalar_t>::min()` of the scalar type are parameters
  (`sqrt`, `tiny`).  Theorems are stated over `ℝ` with `Real.sqrt`.
* A division whose divisor is zero has no value over exact reals (IEEE
  arithmetic yields NaN or an infinity there); it is `none`.
* `for` loops are the bounded iterators `forUp` and `forDown`.
-/

namespace tinyqr

variable {α : Type}

/-! ## Loops, vector accesses and scalar helpers -/

/-- Loop `for (k = 0; k < n; k++) st = body(k, st)`; stops at the first failing iteration. -/
def forUp {σ : Type} (body : Nat → σ → Option σ) : Nat → σ → Option σ
  | 0, st => some st
  | n + 1, st => (forUp body n st).bind (body n)

/-- Loop `for (k = lo; k < hi; k++) st = body(k, st)`. -/
def forRange {σ : Type} (lo hi : Nat) (body : Nat → σ → Option σ) (st : σ) : Option σ :=
  forUp (fun t => body (lo + t)) (hi - lo) st

/-- Loop `for (i = start; i > j; --i) st = body(i, st)`. -/
def forDown {σ : Type} (body : Nat → σ → Option σ) (j : Nat) : Nat → σ → Option σ
  | 0, st => some st
  | i + 1, st => if j < i + 1 then (body (i + 1) st).bind (forDown body j i) else some st

/-- The value of `n - 1` in `size_t` arithmetic: it wraps around at `n = 0`. -/
def pred_size_t (n : Nat) : Nat := if n = 0 then 2 ^ 64 - 1 else n - 1

/-- Indexed write `X[i] = v`. -/
def write (X : List α) (i : Nat) (v : α) : Option (List α) :=
  if i < X.length then some (X.set i v) else none

/-- Call `X.resize(m)`: truncate, or pad with zeros. -/
def resize [Zero α] (X : List α) (m : Nat) : List α :=
  X.take m ++ List.replicate (m - X.length) 0

/-- Scalar division `a / b`, without a value when `b = 0`. -/
def sdiv [LinearOrderedField α] (a b : α) : Option α :=
  if b = 0 then none else some (a / b)

/-- The value `std::numeric_limits<double>::min()`, the smallest positive normal double. -/
def numeric_limits_min [LinearOrderedField α] : α := 1 / 2 ^ 1022

/-- The value `std::numeric_limits<double>::epsilon()`. -/
def numeric_limits_epsilon [LinearOrderedField α] : α := 1 / 2 ^ 52

/-- The default tolerance `tol = 1e-8` of `qr_decomposition`. -/
def default_tol [LinearOrderedField α] : α := 1 / 10 ^ 8

/-! ## `givens_rotation` -/

/-- Function `givens_rotation(a, b)` of `tinyqr.h`, lines 37-48. -/
def givens_rotation [LinearOrderedField α] (sqrt : α → α) (a b : α) : Option (α × α) :=
  if |b| > |a| then
    (sdiv a b).bind fun r =>
    (sdiv 1 (sqrt (1 + r ^ 2))).bind fun s =>
    some (s * r, s)
  else
    (sdiv b a).bind fun r =>
    (sdiv 1 (sqrt (1 + r ^ 2))).bind fun c =>
    some (c, c * r)

/-! ## `transpose_square` and `make_identity` -/

/-- Call `std::swap(X[i], X[j])`. -/
def swap_at (X : List α) (i j : Nat) : Option (List α) :=
  (X[i]?).bind fun a =>
  (X[j]?).bind fun b =>
  (write X i b).bind fun X1 =>
  write X1 j a

/-- Function `transpose_square(X, p)` of `tinyqr.h`, lines 49-57. -/
def transpose_square (X : List α) (p : Nat) : Option (List α) :=
  forUp (fun i X1 => forRange (i + 1) p (fun j X2 => swap_at X2 (j * p + i) (i * p + j)) X1) p X

/-- Function `make_identity(n)` of `tinyqr.h`, lines 58-63; the writes `result[i * n + i] = 1`
are always inside the `n * n` vector. -/
def make_identity [Zero α] [One α] (n : Nat) : List α :=
  (List.range n).foldl (fun result i => result.set (i * n + i) 1) (List.replicate (n * n) 0)

/-! ## The elimination sweeps `qr_impl` and `qr_impl2` -/

/-- Two-element update shared by the inner loops of the sweeps:
`temp_1 = B[i1]; temp_2 = B[i2]; B[i1] = f1(temp_1, temp_2); B[i2] = f2(temp_1, temp_2)`. -/
def update_pair (i1 i2 : Nat) (f1 f2 : α → α → α) (B : List α) : Option (List α) :=
  (B[i1]?).bind fun temp_1 =>
  (B[i2]?).bind fun temp_2 =>
  (write B i1 (f1 temp_1 temp_2)).bind fun B1 =>
  write B1 i2 (f2 temp_1 temp_2)

/-- Body of the loops of `qr_impl` (lines 104-132) at column `j` and row `i`;
the state is the pair `(Q, R)`. -/
def qr_impl_step [LinearOrderedField α] (sqrt : α → α) (tiny : α) (n p j i : Nat)
    (st : List α × List α) : Option (List α × List α) :=
  (st.2[j * n + i]?).bind fun x =>
  if |x| ≤ tiny then some st
  else
    (st.2[(j * n) + (i - 1)]?).bind fun a =>
    (st.2[j * n + i]?).bind fun b =>
    (givens_rotation sqrt a b).bind fun cs =>
    (forUp (fun k R => update_pair (k * n + (i - 1)) (k * n + i)
        (fun temp_1 temp_2 => cs.1 * temp_1 + cs.2 * temp_2)
        (fun temp_1 temp_2 => -cs.2 * temp_1 + cs.1 * temp_2) R) p st.2).bind fun R1 =>
    (forUp (fun k Q => update_pair (k * n + i) (k * n + i - 1)
        (fun temp_1 temp_2 => cs.1 * temp_1 - cs.2 * temp_2)
        (fun temp_1 temp_2 => cs.2 * temp_1 + cs.1 * temp_2) Q) n st.1).bind fun Q1 =>
    some (Q1, R1)

/-- Cleanup pass `for (auto &val : R) val = std::abs(val) < tol ? 0.0 : val`. -/
def cleanup_R [LinearOrderedField α] (tol : α) (R : List α) : List α :=
  R.map fun val => if |val| < tol then 0 else val

/-- Function `qr_impl<scalar_t, cleanup>(Q, R, n, p, tol)` of `tinyqr.h`, lines 96-142;
returns the final contents of the in-out buffers `(Q, R)`. -/
def qr_impl [LinearOrderedField α] (sqrt : α → α) (tiny : α) (cleanup : Bool)
    (Q R : List α) (n p : Nat) (tol : α) : Option (List α × List α) :=
  (forUp (fun j st => forDown (qr_impl_step sqrt tiny n p j) j (pred_size_t n) st) p (Q, R)).bind
    fun st => if cleanup then some (st.1, cleanup_R tol st.2) else some st

/-- Body of the loops of `qr_impl2` (lines 151-180) at column `j` and row `i`. -/
def qr_impl2_step [LinearOrderedField α] (sqrt : α → α) (tiny : α) (n p j i : Nat)
    (st : List α × List α) : Option (List α × List α) :=
  (st.2[i * p + j]?).bind fun x =>
  if |x| ≤ tiny then some st
  else
    (st.2[(i - 1) * p + j]?).bind fun a =>
    (st.2[i * p + j]?).bind fun b =>
    (givens_rotation sqrt a b).bind fun cs =>
    (forUp (fun k R => update_pair ((i - 1) * p + k) (i * p + k)
        (fun temp_1 temp_2 => cs.1 * temp_1 + cs.2 * temp_2)
        (fun temp_1 temp_2 => -cs.2 * temp_1 + cs.1 * temp_2) R) p st.2).bind fun R1 =>
    (forUp (fun k Q => update_pair (i * n + k) ((i - 1) * n + k)
        (fun temp_1 temp_2 => cs.1 * temp_1 - cs.2 * temp_2)
        (fun temp_1 temp_2 => cs.2 * temp_1 + cs.1 * temp_2) Q) n st.1).bind fun Q1 =>
    some (Q1, R1)

/-- Function `qr_impl2<scalar_t, cleanup>(Q, R, n, p, tol)` of `tinyqr.h`, lines 143-190. -/
def qr_impl2 [LinearOrderedField α] (sqrt : α → α) (tiny : α) (cleanup : Bool)
    (Q R : List α) (n p : Nat) (tol : α) : Option (List α × List α) :=
  (forUp (fun j st => forDown (qr_impl2_step sqrt tiny n p j) j (pred_size_t n) st) p (Q, R)).bind
    fun st => if cleanup then some (st.1, cleanup_R tol st.2) else some st

/-! ## The facade `qr_decomposition` -/

/-- The variant selector `enum QRImpl`. -/
inductive QRImpl where
  | baseline
  | transpose
  deriving DecidableEq

/-- The result `struct QR { Q; R; }`. -/
structure QR (α : Type) where
  Q : List α
  R : List α

/-- Input transposition of the `transpose` variant (lines 212-216):
`R[i * p + j] = X[j * n + i]`. -/
def transpose_input (X R : List α) (n p : Nat) : Option (List α) :=
  forUp (fun i R1 => forUp (fun j R2 => (X[j * n + i]?).bind fun x => write R2 (i * p + j) x) p R1) n R

/-- Compaction of `R` (lines 222-227): `R[k++] = R[i * n + j]`; the state is `(R, k)`. -/
def compact_R (R : List α) (n p : Nat) : Option (List α × Nat) :=
  forUp (fun i st1 => forUp (fun j st2 =>
      (st2.1[i * n + j]?).bind fun x =>
      (write st2.1 st2.2 x).bind fun R1 => some (R1, st2.2 + 1)) p st1) p (R, 0)

/-- Function `qr_decomposition<scalar_t, qr_impl>(X, n, p, tol)` of `tinyqr.h`, lines 200-231.
In the `baseline` branch the sweep runs on the block-local vector `R = X` declared at line 208,
so the outer `R` (zeros, line 206) is what the compaction reads. -/
def qr_decomposition [LinearOrderedField α] (sqrt : α → α) (tiny : α) (impl : QRImpl)
    (X : List α) (n p : Nat) (tol : α) : Option (QR α) :=
  let Q : List α := make_identity n
  let R : List α := List.replicate X.length 0
  (match impl with
    | QRImpl.baseline =>
        (qr_impl sqrt tiny true Q X n p tol).bind fun st => some (st.1, R)
    | QRImpl.transpose =>
        (transpose_input X R n p).bind fun R1 => qr_impl2 sqrt tiny true Q R1 n p tol).bind fun st =>
  (transpose_square st.1 n).bind fun Q1 =>
  (compact_R st.2 n p).bind fun st2 =>
  some ⟨resize Q1 (n * p), resize st2.1 (p * p)⟩

/-! ## The validation oracle `validate_qr` -/

/-- The product entry `tmp` that `validate_qr` (lines 74-77) accumulates for row `i` and
column `j`: the sum over `k < p` of `Q[k * n + i] * R[j * p + k]`. -/
def validate_entry [LinearOrderedField α] (Q R : List α) (n p i j : Nat) : Option α :=
  forUp (fun k tmp => (Q[k * n + i]?).bind fun q => (R[j * p + k]?).bind fun r =>
    some (tmp + q * r)) p 0

/-- What `validate_qr` prints: the success line, or the error line with the computed value,
the value shown as expected, the difference and the tolerance (each with the sizes). -/
inductive ValidateReport (α : Type) where
  | success (n p : Nat)
  | mismatch (computed expected diff eps : α) (n p : Nat)

/-- Function `validate_qr(X, Q, R, n, p)` of `tinyqr.h`, lines 64-91. The loop state is the
report of the first mismatch, if one was found; after the `return` of line 85 the remaining
iterations do nothing. -/
def validate_qr [LinearOrderedField α] (X Q R : List α) (n p : Nat) :
    Option (ValidateReport α) :=
  (forUp (fun i found => forUp (fun j found1 =>
      match found1 with
      | some report => some (some report)
      | none =>
        (validate_entry Q R n p i j).bind fun tmp =>
        (X[j * n + i]?).bind fun x =>
        if |x - tmp| > numeric_limits_epsilon * 10 ^ 4 then
          (X[i * p + j]?).bind fun shown =>
          some (some (ValidateReport.mismatch tmp shown |x - tmp|
            (numeric_limits_epsilon * 10 ^ 4) n p))
        else some none) p found) n none).bind fun found =>
  match found with
  | some report => some report
  | none => some (ValidateReport.success n p)

/-! ## Specification vocabulary -/

/-- Column-major position of entry `(r, k)` in a matrix with `n` rows. -/
def colMajor (n : Nat) (r k : Nat) : Nat := k * n + r

/-- Row-major position of entry `(r, k)` in a matrix with `w` columns. -/
def rowMajor (w : Nat) (r k : Nat) : Nat := r * w + k

/-- Relation `RowRot`: `B'` is `B` with rows `i - 1` and `i` of the `rows × cols` matrix
stored through `pos` replaced by `c·row(i-1) + s·row(i)` and `-s·row(i-1) + c·row(i)`. -/
def RowRot [LinearOrderedField α] (pos : Nat → Nat → Nat) (rows cols : Nat) (c s : α) (i : Nat)
    (B B' : List α) : Prop :=
  B'.length = B.length ∧
  ∀ r k, r < rows → k < cols → B'.getD (pos r k) 0 =
    if r = i - 1 then c * B.getD (pos (i - 1) k) 0 + s * B.getD (pos i k) 0
    else if r = i then -s * B.getD (pos (i - 1) k) 0 + c * B.getD (pos i k) 0
    else B.getD (pos r k) 0

/-- Predicate `ColOrtho`: the columns of the `n × n` matrix stored in `Q` through `pos` are
orthonormal, i.e. the sum over rows `r < n` of `Q(r,k)·Q(r,l)` is `1` if `k = l`, else `0`. -/
def ColOrtho [LinearOrderedField α] (pos : Nat → Nat → Nat) (n : Nat) (Q : List α) : Prop :=
  ∀ k l, k < n → l < n →
    ∑ r in Finset.range n, Q.getD (pos r k) 0 * Q.getD (pos r l) 0 = if k = l then 1 else 0

/-- The Euclidean norm `‖x‖₂` of a column, the square root of the sum of its squares. -/
def euclid_norm [LinearOrderedField α] (sqrt : α → α) (x : List α) : α :=
  sqrt ((x.map fun v => v ^ 2).sum)

/-- Invariant `ColumnTail x n i R` of the sweep of a single column `x`: the rows below `i` are
annihilated, the rows above `i` are untouched, and row `i` carries the norm of the tail. -/
def ColumnTail (x : List ℝ) (n i : Nat) (R : List ℝ) : Prop :=
  (∀ r, i < r → r < n → R.getD r 0 = 0) ∧ (∀ r, r < i → R.getD r 0 = x.getD r 0) ∧
  R.getD i 0 ^ 2 = ∑ r in Finset.Ico i n, x.getD r 0 ^ 2

/-- Invariant `SubdiagZero pos n j i R` of the sweep before row `i` of column `j` is
processed: in the matrix stored in `R` through `pos`, every sub-diagonal entry of a column
`c < j` is zero, and so is every entry of column `j` at a row `> i`. -/
def SubdiagZero (pos : Nat → Nat → Nat) (n j i : Nat) (R : List ℝ) : Prop :=
  (∀ c r, c < j → c < r → r < n → R.getD (pos r c) 0 = 0) ∧
  (∀ r, i < r → r < n → R.getD (pos r j) 0 = 0)

/-- Relation `LayoutRel n p st1 st2` between a state `(Q1, R1)` of `qr_impl` and a state
`(Q2, R2)` of `qr_impl2`: the buffers have the sizes `n·n` and `n·p`, and
`R2[i·p+k] = R1[k·n+i]` (`i < n`, `k < p`), `Q2[i·n+k] = Q1[k·n+i]` (`i, k < n`). -/
def LayoutRel (n p : Nat) (st1 st2 : List ℝ × List ℝ) : Prop :=
  st1.1.length = n * n ∧ st1.2.length = n * p ∧ st2.1.length = n * n ∧ st2.2.length = n * p ∧
  (∀ i k, i < n → k < p → st2.2.getD (i * p + k) 0 = st1.2.getD (k * n + i) 0) ∧
  (∀ i k, i < n → k < n → st2.1.getD (i * n + k) 0 = st1.1.getD (k * n + i) 0)

/-! ## Facts about `givens_rotation` -/

theorem sdiv_of_ne [LinearOrderedField α] (a : α) {b : α} (hb : b ≠ 0) : sdiv a b = some (a / b) := by
  simp [sdiv, hb]

/-- Algebra of one branch of `givens_rotation`: with `t² = 1 + (x / y)²`, the pair
`(1 / t * (x / y), 1 / t)` is a unit vector orthogonal to `(y, -x)` scaled suitably. -/
theorem givens_branch_algebra (x y t : ℝ) (hy : y ≠ 0) (ht : t ≠ 0)
    (ht2 : t ^ 2 = 1 + (x / y) ^ 2) :
    (1 / t * (x / y)) ^ 2 + (1 / t) ^ 2 = 1 ∧
    -(1 / t) * x + (1 / t * (x / y)) * y = 0 ∧
    ((1 / t * (x / y)) * x + (1 / t) * y) ^ 2 = x ^ 2 + y ^ 2 := by
  have h2 : t ^ 2 * y ^ 2 = x ^ 2 + y ^ 2 := by
    rw [ht2]; field_simp; ring
  refine ⟨?_, ?_, ?_⟩
  · field_simp
    nlinarith [h2]
  · field_simp
    ring
  · field_simp
    have h3 : (t * y * t) ^ 2 = t ^ 2 * (x ^ 2 + y ^ 2) := by rw [← h2]; ring
    rw [h3]
    have h4 : (x * x * t + y * (t * y)) ^ 2 = t ^ 2 * (x ^ 2 + y ^ 2) ^ 2 := by ring
    rw [h4]; ring

/-- Closed form of `givens_rotation` over the reals when `a`, `b` are not both zero. -/
theorem givens_rotation_real (a b : ℝ) (h : a ≠ 0 ∨ b ≠ 0) :
    ∃ c s : ℝ, givens_rotation Real.sqrt a b = some (c, s) ∧ c ^ 2 + s ^ 2 = 1 ∧
      -s * a + c * b = 0 ∧ (c * a + s * b) ^ 2 = a ^ 2 + b ^ 2 := by
  by_cases hab : |b| > |a|
  · have hb : b ≠ 0 := by
      intro hb
      rw [hb, abs_zero] at hab
      exact absurd hab (not_lt.mpr (abs_nonneg a))
    have hpos : 0 < 1 + (a / b) ^ 2 := by positivity
    have hsq : Real.sqrt (1 + (a / b) ^ 2) ≠ 0 := (Real.sqrt_pos.mpr hpos).ne'
    have hss : Real.sqrt (1 + (a / b) ^ 2) ^ 2 = 1 + (a / b) ^ 2 := Real.sq_sqrt hpos.le
    obtain ⟨h1, h2, h3⟩ := givens_branch_algebra a b _ hb hsq hss
    refine ⟨1 / Real.sqrt (1 + (a / b) ^ 2) * (a / b), 1 / Real.sqrt (1 + (a / b) ^ 2), ?_, h1, h2, h3⟩
    simp [givens_rotation, hab, sdiv_of_ne, hb, hsq]
  · have ha : a ≠ 0 := by
      intro ha
      rw [ha, abs_zero] at hab
      have hb0 : b = 0 := abs_eq_zero.mp (le_antisymm (not_lt.mp hab) (abs_nonneg b))
      rcases h with h | h
      · exact h ha
      · exact h hb0
    have hpos : 0 < 1 + (b / a) ^ 2 := by positivity
    have hsq : Real.sqrt (1 + (b / a) ^ 2) ≠ 0 := (Real.sqrt_pos.mpr hpos).ne'
    have hss : Real.sqrt (1 + (b / a) ^ 2) ^ 2 = 1 + (b / a) ^ 2 := Real.sq_sqrt hpos.le
    obtain ⟨h1, h2, h3⟩ := givens_branch_algebra b a _ ha hsq hss
    refine ⟨1 / Real.sqrt (1 + (b / a) ^ 2), 1 / Real.sqrt (1 + (b / a) ^ 2) * (b / a), ?_, ?_, ?_, ?_⟩
    · simp [givens_rotation, hab, sdiv_of_ne, ha, hsq]
    · linarith
    · linarith
    · rw [add_comm (a ^ 2), ← h3]; ring

theorem givens_rotation_zero_zero : givens_rotation Real.sqrt (0 : ℝ) 0 = none := by
  simp [givens_rotation, sdiv]

/-! ## Loop rules -/

/-- Invariant rule for `forUp`: the loop returns, and an invariant indexed by the number of
completed iterations holds at the end. -/
theorem forUp_inv {σ : Type} (body : Nat → σ → Option σ) (Inv : Nat → σ → Prop) (n : Nat)
    (s0 : σ) (h0 : Inv 0 s0)
    (hstep : ∀ k s, k < n → Inv k s → ∃ s', body k s = some s' ∧ Inv (k + 1) s') :
    ∃ s', forUp body n s0 = some s' ∧ Inv n s' := by
  induction n with
  | zero => exact ⟨s0, rfl, h0⟩
  | succ m ih =>
    obtain ⟨s1, hs1, hI1⟩ := ih (fun k s hk hI => hstep k s (Nat.lt_succ_of_lt hk) hI)
    obtain ⟨s2, hs2, hI2⟩ := hstep m s1 (Nat.lt_succ_self m) hI1
    exact ⟨s2, by simp [forUp, hs1, hs2], hI2⟩

/-- Invariant rule for `forRange`, indexed by the loop variable. -/
theorem forRange_inv {σ : Type} (body : Nat → σ → Option σ) (Inv : Nat → σ → Prop)
    (lo hi : Nat) (hle : lo ≤ hi) (s0 : σ) (h0 : Inv lo s0)
    (hstep : ∀ k s, lo ≤ k → k < hi → Inv k s → ∃ s', body k s = some s' ∧ Inv (k + 1) s') :
    ∃ s', forRange lo hi body s0 = some s' ∧ Inv hi s' := by
  have h := forUp_inv (fun t => body (lo + t)) (fun t s => Inv (lo + t) s) (hi - lo) s0 h0
    (fun k s hk hI => hstep (lo + k) s (Nat.le_add_right lo k) (by omega) hI)
  obtain ⟨s', hs', hI'⟩ := h
  refine ⟨s', hs', ?_⟩
  have : lo + (hi - lo) = hi := by omega
  rwa [this] at hI'

/-- Invariant rule for `forDown`: the body runs at `i0, i0 - 1, ..., j + 1`. -/
theorem forDown_inv {σ : Type} (body : Nat → σ → Option σ) (Inv : Nat → σ → Prop)
    (j i0 : Nat) (hle : j ≤ i0) (s0 : σ) (h0 : Inv i0 s0)
    (hstep : ∀ i s, j < i → i ≤ i0 → Inv i s → ∃ s', body i s = some s' ∧ Inv (i - 1) s') :
    ∃ s', forDown body j i0 s0 = some s' ∧ Inv j s' := by
  induction i0 generalizing s0 with
  | zero =>
    have : j = 0 := by omega
    subst this
    exact ⟨s0, rfl, h0⟩
  | succ m ih =>
    by_cases hj : j < m + 1
    · obtain ⟨s1, hs1, hI1⟩ := hstep (m + 1) s0 hj (le_refl _) h0
      obtain ⟨s2, hs2, hI2⟩ := ih (by omega) s1 hI1
        (fun i s hji him hI => hstep i s hji (by omega) hI)
      exact ⟨s2, by simp [forDown, hj, hs1, hs2], hI2⟩
    · have : j = m + 1 := by omega
      subst this
      exact ⟨s0, by simp [forDown], h0⟩

/-! ## Vector reads and writes -/

theorem getD_eq_of_getElem? [Zero α] {B : List α} {i : Nat} {v : α} (h : B[i]? = some v) :
    B.getD i 0 = v := by
  simp [List.getD_eq_getElem?_getD, h]

theorem getElem?_eq_some_getD [Zero α] {B : List α} {i : Nat} (h : i < B.length) :
    B[i]? = some (B.getD i 0) := by
  simp [List.getD_eq_getElem?_getD, List.getElem?_eq_getElem h]

theorem write_of_lt (X : List α) {i : Nat} (v : α) (h : i < X.length) :
    write X i v = some (X.set i v) := by
  simp [write, h]

theorem getD_set [Zero α] (B : List α) {i : Nat} (v : α) (h : i < B.length) (m : Nat) :
    (B.set i v).getD m 0 = if m = i then v else B.getD m 0 := by
  simp only [List.getD_eq_getElem?_getD, List.getElem?_set, h, if_true]
  by_cases hm : i = m
  · subst hm; simp
  · have : ¬ m = i := fun e => hm e.symm
    simp [hm, this]

/-- Effect of the two-element update on every slot of the vector. -/
theorem update_pair_spec [Zero α] (i1 i2 : Nat) (f1 f2 : α → α → α) (B : List α)
    (h1 : i1 < B.length) (h2 : i2 < B.length) :
    ∃ B', update_pair i1 i2 f1 f2 B = some B' ∧ B'.length = B.length ∧
      ∀ m, B'.getD m 0 = if m = i2 then f2 (B.getD i1 0) (B.getD i2 0)
        else if m = i1 then f1 (B.getD i1 0) (B.getD i2 0) else B.getD m 0 := by
  refine ⟨(B.set i1 (f1 (B.getD i1 0) (B.getD i2 0))).set i2 (f2 (B.getD i1 0) (B.getD i2 0)),
    ?_, by simp, ?_⟩
  · unfold update_pair
    rw [getElem?_eq_some_getD h1, getElem?_eq_some_getD h2]
    simp only [Option.some_bind]
    rw [write_of_lt _ _ h1]
    simp only [Option.some_bind]
    rw [write_of_lt _ _ (by simpa using h2)]
  · intro m
    rw [getD_set _ _ (by simpa using h2), getD_set _ _ h1]

/-- Effect of `std::swap` on every slot of the vector. -/
theorem swap_at_spec [Zero α] (X : List α) (i j : Nat) (hi : i < X.length) (hj : j < X.length) :
    ∃ X', swap_at X i j = some X' ∧ X'.length = X.length ∧
      ∀ m, X'.getD m 0 = if m = j then X.getD i 0 else if m = i then X.getD j 0
        else X.getD m 0 := by
  refine ⟨(X.set i (X.getD j 0)).set j (X.getD i 0), ?_, by simp, ?_⟩
  · unfold swap_at
    rw [getElem?_eq_some_getD hi, getElem?_eq_some_getD hj]
    simp only [Option.some_bind]
    rw [write_of_lt _ _ hi]
    simp only [Option.some_bind]
    rw [write_of_lt _ _ (by simpa using hj)]
  · intro m
    rw [getD_set _ _ (by simpa using hj), getD_set _ _ hi]

/-! ## Index arithmetic of the flat layouts -/

theorem idx_lt {n m r k : Nat} (hr : r < n) (hk : k < m) : k * n + r < m * n := by
  calc k * n + r < k * n + n := Nat.add_lt_add_left hr _
    _ = (k + 1) * n := by ring
    _ ≤ m * n := Nat.mul_le_mul_right n hk

theorem idx_inj {n k r k' r' : Nat} (hr : r < n) (hr' : r' < n)
    (h : k * n + r = k' * n + r') : k = k' ∧ r = r' := by
  have hn : 0 < n := by omega
  have h1 : (k * n + r) / n = k := by
    rw [Nat.add_comm, Nat.add_mul_div_right _ _ hn, Nat.div_eq_of_lt hr, Nat.zero_add]
  have h2 : (k' * n + r') / n = k' := by
    rw [Nat.add_comm, Nat.add_mul_div_right _ _ hn, Nat.div_eq_of_lt hr', Nat.zero_add]
  have hk : k = k' := by rw [← h1, ← h2, h]
  subst hk
  exact ⟨rfl, by omega⟩

/-! ## The inner loops of the sweeps -/

/-- A loop of two-element updates at pairwise distinct slots `(ix k, iy k)`, `k < m`,
updates exactly those slots, each from the original contents. -/
theorem rot_loop_spec [Zero α] (ix iy : Nat → Nat) (f1 f2 : α → α → α) (m : Nat) (B : List α)
    (hx : ∀ k, k < m → ix k < B.length) (hy : ∀ k, k < m → iy k < B.length)
    (hxy : ∀ k k', k < m → k' < m → ix k ≠ iy k')
    (hxx : ∀ k k', k < m → k' < m → ix k = ix k' → k = k')
    (hyy : ∀ k k', k < m → k' < m → iy k = iy k' → k = k') :
    ∃ B', forUp (fun k B1 => update_pair (ix k) (iy k) f1 f2 B1) m B = some B' ∧
      B'.length = B.length ∧
      (∀ k, k < m → B'.getD (ix k) 0 = f1 (B.getD (ix k) 0) (B.getD (iy k) 0)) ∧
      (∀ k, k < m → B'.getD (iy k) 0 = f2 (B.getD (ix k) 0) (B.getD (iy k) 0)) ∧
      (∀ t, (∀ k, k < m → t ≠ ix k) → (∀ k, k < m → t ≠ iy k) → B'.getD t 0 = B.getD t 0) := by
  have h := forUp_inv (fun k B1 => update_pair (ix k) (iy k) f1 f2 B1)
    (fun c B1 => B1.length = B.length ∧
      (∀ k, k < c → B1.getD (ix k) 0 = f1 (B.getD (ix k) 0) (B.getD (iy k) 0)) ∧
      (∀ k, k < c → B1.getD (iy k) 0 = f2 (B.getD (ix k) 0) (B.getD (iy k) 0)) ∧
      (∀ t, (∀ k, k < c → t ≠ ix k) → (∀ k, k < c → t ≠ iy k) → B1.getD t 0 = B.getD t 0))
    m B ⟨rfl, fun k hk => absurd hk (Nat.not_lt_zero k), fun k hk => absurd hk (Nat.not_lt_zero k),
      fun t _ _ => rfl⟩ ?_
  · exact h
  · intro c B1 hc ⟨hlen, hX, hY, hrest⟩
    obtain ⟨B2, hB2, hlen2, hget⟩ := update_pair_spec (ix c) (iy c) f1 f2 B1
      (by rw [hlen]; exact hx c hc) (by rw [hlen]; exact hy c hc)
    have hxc : B1.getD (ix c) 0 = B.getD (ix c) 0 :=
      hrest _ (fun k hk e => by have := hxx c k hc (by omega) e; omega)
        (fun k hk e => hxy c k hc (by omega) e)
    have hyc : B1.getD (iy c) 0 = B.getD (iy c) 0 :=
      hrest _ (fun k hk e => hxy k c (by omega) hc e.symm)
        (fun k hk e => by have := hyy c k hc (by omega) e; omega)
    refine ⟨B2, hB2, by rw [hlen2, hlen], ?_, ?_, ?_⟩
    · intro k hk
      rw [hget]
      have h1 : ix k ≠ iy c := hxy k c (by omega) hc
      by_cases hkc : k = c
      · subst hkc
        rw [if_neg h1, if_pos rfl, hxc, hyc]
      · have h2 : ix k ≠ ix c := fun e => hkc (hxx k c (by omega) hc e)
        simp only [h1, h2, if_false]
        exact hX k (by omega)
    · intro k hk
      rw [hget]
      by_cases hkc : k = c
      · subst hkc
        rw [if_pos rfl, hxc, hyc]
      · have h2 : iy k ≠ iy c := fun e => hkc (hyy k c (by omega) hc e)
        have h1 : iy k ≠ ix c := fun e => hxy c k hc (by omega) e.symm
        simp only [h1, h2, if_false]
        exact hY k (by omega)
    · intro t ht1 ht2
      rw [hget]
      have h1 : t ≠ iy c := ht2 c (Nat.lt_succ_self c)
      have h2 : t ≠ ix c := ht1 c (Nat.lt_succ_self c)
      simp only [h1, h2, if_false]
      exact hrest t (fun k hk => ht1 k (by omega)) (fun k hk => ht2 k (by omega))

theorem RowRot_refl [LinearOrderedField α] (pos : Nat → Nat → Nat) (rows cols i : Nat)
    (B : List α) : RowRot pos rows cols 1 0 i B B := by
  refine ⟨rfl, fun r k _ _ => ?_⟩
  by_cases h1 : r = i - 1
  · subst h1; simp
  · by_cases h2 : r = i
    · subst h2; simp [h1]
    · simp [h1, h2]

/-- The `R` loop of `qr_impl` (lines 113-122) rotates rows `i - 1`, `i` of the
column-major `n × p` buffer. -/
theorem qr_impl_R_loop [LinearOrderedField α] (c s : α) (n p i : Nat) (hi : 0 < i) (hin : i < n)
    (R : List α) (hR : R.length = n * p) :
    ∃ R', forUp (fun k R1 => update_pair (k * n + (i - 1)) (k * n + i)
        (fun temp_1 temp_2 => c * temp_1 + s * temp_2)
        (fun temp_1 temp_2 => -s * temp_1 + c * temp_2) R1) p R = some R' ∧
      RowRot (colMajor n) n p c s i R R' := by
  have hlen : R.length = p * n := by rw [hR, Nat.mul_comm]
  obtain ⟨R', hR', hl, hX, hY, hrest⟩ := rot_loop_spec (fun k => k * n + (i - 1))
    (fun k => k * n + i) (fun temp_1 temp_2 => c * temp_1 + s * temp_2)
    (fun temp_1 temp_2 => -s * temp_1 + c * temp_2) p R
    (fun k hk => by rw [hlen]; exact idx_lt (by omega) hk)
    (fun k hk => by rw [hlen]; exact idx_lt hin hk)
    (fun k k' _ _ e => by have := (idx_inj (by omega) hin e).2; omega)
    (fun k k' _ _ e => (idx_inj (by omega) (by omega) e).1)
    (fun k k' _ _ e => (idx_inj hin hin e).1)
  refine ⟨R', hR', hl, fun r k hr hk => ?_⟩
  unfold colMajor
  by_cases h1 : r = i - 1
  · subst h1; simp only [if_true]; exact hX k hk
  · by_cases h2 : r = i
    · subst h2; simp only [h1, if_false, if_true]; exact hY k hk
    · simp only [h1, h2, if_false]
      exact hrest _ (fun k' _ e => h1 (idx_inj hr (by omega) e).2)
        (fun k' _ e => h2 (idx_inj hr hin e).2)

/-- The `Q` loop of `qr_impl` (lines 123-132) rotates rows `i - 1`, `i` of the matrix whose
entry `(r, k)` is `Q[k * n + r]`. -/
theorem qr_impl_Q_loop [LinearOrderedField α] (c s : α) (n i : Nat) (hi : 0 < i) (hin : i < n)
    (Q : List α) (hQ : Q.length = n * n) :
    ∃ Q', forUp (fun k Q1 => update_pair (k * n + i) (k * n + i - 1)
        (fun temp_1 temp_2 => c * temp_1 - s * temp_2)
        (fun temp_1 temp_2 => s * temp_1 + c * temp_2) Q1) n Q = some Q' ∧
      RowRot (colMajor n) n n c s i Q Q' := by
  have hidx : ∀ k, k * n + i - 1 = k * n + (i - 1) := fun k => by omega
  simp only [hidx]
  obtain ⟨Q', hQ', hl, hX, hY, hrest⟩ := rot_loop_spec (fun k => k * n + i)
    (fun k => k * n + (i - 1)) (fun temp_1 temp_2 => c * temp_1 - s * temp_2)
    (fun temp_1 temp_2 => s * temp_1 + c * temp_2) n Q
    (fun k hk => by rw [hQ]; exact idx_lt hin hk)
    (fun k hk => by rw [hQ]; exact idx_lt (by omega) hk)
    (fun k k' _ _ e => by have := (idx_inj hin (by omega) e).2; omega)
    (fun k k' _ _ e => (idx_inj hin hin e).1)
    (fun k k' _ _ e => (idx_inj (by omega) (by omega) e).1)
  refine ⟨Q', hQ', hl, fun r k hr hk => ?_⟩
  unfold colMajor
  by_cases h1 : r = i - 1
  · subst h1; simp only [if_true]
    rw [hY k hk]; ring
  · by_cases h2 : r = i
    · subst h2; simp only [h1, if_false, if_true]
      rw [hX k hk]; ring
    · simp only [h1, h2, if_false]
      exact hrest _ (fun k' _ e => h2 (idx_inj hr hin e).2)
        (fun k' _ e => h1 (idx_inj hr (by omega) e).2)

/-- The `R` loop of `qr_impl2` (lines 161-170) rotates rows `i - 1`, `i` of the row-major
`n × p` buffer. -/
theorem qr_impl2_R_loop [LinearOrderedField α] (c s : α) (n p i : Nat) (hi : 0 < i)
    (hin : i < n) (R : List α) (hR : R.length = n * p) :
    ∃ R', forUp (fun k R1 => update_pair ((i - 1) * p + k) (i * p + k)
        (fun temp_1 temp_2 => c * temp_1 + s * temp_2)
        (fun temp_1 temp_2 => -s * temp_1 + c * temp_2) R1) p R = some R' ∧
      RowRot (rowMajor p) n p c s i R R' := by
  obtain ⟨R', hR', hl, hX, hY, hrest⟩ := rot_loop_spec (fun k => (i - 1) * p + k)
    (fun k => i * p + k) (fun temp_1 temp_2 => c * temp_1 + s * temp_2)
    (fun temp_1 temp_2 => -s * temp_1 + c * temp_2) p R
    (fun k hk => by rw [hR]; exact idx_lt hk (by omega))
    (fun k hk => by rw [hR]; exact idx_lt hk hin)
    (fun k k' hk hk' e => by have := (idx_inj hk hk' e).1; omega)
    (fun k k' hk hk' e => (idx_inj hk hk' e).2)
    (fun k k' hk hk' e => (idx_inj hk hk' e).2)
  refine ⟨R', hR', hl, fun r k hr hk => ?_⟩
  unfold rowMajor
  by_cases h1 : r = i - 1
  · subst h1; simp only [if_true]; exact hX k hk
  · by_cases h2 : r = i
    · subst h2; simp only [h1, if_false, if_true]; exact hY k hk
    · simp only [h1, h2, if_false]
      exact hrest _ (fun k' hk' e => h1 (idx_inj hk hk' e).1)
        (fun k' hk' e => h2 (idx_inj hk hk' e).1)

/-- The `Q` loop of `qr_impl2` (lines 171-180) rotates rows `i - 1`, `i` of the row-major
`n × n` buffer. -/
theorem qr_impl2_Q_loop [LinearOrderedField α] (c s : α) (n i : Nat) (hi : 0 < i) (hin : i < n)
    (Q : List α) (hQ : Q.length = n * n) :
    ∃ Q', forUp (fun k Q1 => update_pair (i * n + k) ((i - 1) * n + k)
        (fun temp_1 temp_2 => c * temp_1 - s * temp_2)
        (fun temp_1 temp_2 => s * temp_1 + c * temp_2) Q1) n Q = some Q' ∧
      RowRot (rowMajor n) n n c s i Q Q' := by
  obtain ⟨Q', hQ', hl, hX, hY, hrest⟩ := rot_loop_spec (fun k => i * n + k)
    (fun k => (i - 1) * n + k) (fun temp_1 temp_2 => c * temp_1 - s * temp_2)
    (fun temp_1 temp_2 => s * temp_1 + c * temp_2) n Q
    (fun k hk => by rw [hQ]; exact idx_lt hk hin)
    (fun k hk => by rw [hQ]; exact idx_lt hk (by omega))
    (fun k k' hk hk' e => by have := (idx_inj hk hk' e).1; omega)
    (fun k k' hk hk' e => (idx_inj hk hk' e).2)
    (fun k k' hk hk' e => (idx_inj hk hk' e).2)
  refine ⟨Q', hQ', hl, fun r k hr hk => ?_⟩
  unfold rowMajor
  by_cases h1 : r = i - 1
  · subst h1; simp only [if_true]
    rw [hY k hk]; ring
  · by_cases h2 : r = i
    · subst h2; simp only [h1, if_false, if_true]
      rw [hX k hk]; ring
    · simp only [h1, h2, if_false]
      exact hrest _ (fun k' hk' e => h2 (idx_inj hk hk' e).1)
        (fun k' hk' e => h1 (idx_inj hk hk' e).1)

/-! ## One elimination step -/

/-- Two sums over `range n` agree when the summands agree away from two indices `a ≠ b`
and the two exceptional summands have the same total. -/
theorem sum_eq_of_two [LinearOrderedField α] (f g : Nat → α) (n a b : Nat) (ha : a < n)
    (hb : b < n) (hab : a ≠ b) (h : ∀ r, r < n → r ≠ a → r ≠ b → f r = g r)
    (h2 : f a + f b = g a + g b) :
    ∑ r in Finset.range n, f r = ∑ r in Finset.range n, g r := by
  have ma : a ∈ Finset.range n := Finset.mem_range.mpr ha
  have mb : b ∈ (Finset.range n).erase a :=
    Finset.mem_erase.mpr ⟨fun e => hab e.symm, Finset.mem_range.mpr hb⟩
  rw [← Finset.add_sum_erase _ f ma, ← Finset.add_sum_erase _ f mb,
    ← Finset.add_sum_erase _ g ma, ← Finset.add_sum_erase _ g mb, ← add_assoc, ← add_assoc, h2]
  congr 1
  apply Finset.sum_congr rfl
  intro r hr
  have hr1 := Finset.mem_erase.mp hr
  have hr2 := Finset.mem_erase.mp hr1.2
  exact h r (Finset.mem_range.mp hr2.2) hr2.1 hr1.1

/-- A rotation of two rows by `(c, s)` with `c² + s² = 1` preserves every inner product of
two columns. -/
theorem RowRot_col_inner [LinearOrderedField α] (pos : Nat → Nat → Nat) (n cols : Nat)
    (c s : α) (hcs : c ^ 2 + s ^ 2 = 1) (i : Nat) (hi : 0 < i) (hin : i < n) (B B' : List α)
    (h : RowRot pos n cols c s i B B') (k l : Nat) (hk : k < cols) (hl : l < cols) :
    ∑ r in Finset.range n, B'.getD (pos r k) 0 * B'.getD (pos r l) 0 =
      ∑ r in Finset.range n, B.getD (pos r k) 0 * B.getD (pos r l) 0 := by
  have hne : i - 1 ≠ i := by omega
  apply sum_eq_of_two _ _ n (i - 1) i (by omega) hin hne
  · intro r hr h1 h2
    rw [h.2 r k hr hk, h.2 r l hr hl]
    simp only [h1, h2, if_false]
  · rw [h.2 (i - 1) k (by omega) hk, h.2 (i - 1) l (by omega) hl, h.2 i k hin hk,
      h.2 i l hin hl]
    have hne' : i ≠ i - 1 := fun e => hne e.symm
    simp only [if_true, hne', if_false]
    generalize B.getD (pos (i - 1) k) 0 = x
    generalize B.getD (pos i k) 0 = y
    generalize B.getD (pos (i - 1) l) 0 = z
    generalize B.getD (pos i l) 0 = w
    have : (c * x + s * y) * (c * z + s * w) + (-s * x + c * y) * (-s * z + c * w) =
        (c ^ 2 + s ^ 2) * (x * z + y * w) := by ring
    rw [this, hcs, one_mul]

theorem RowRot_ColOrtho [LinearOrderedField α] (pos : Nat → Nat → Nat) (n : Nat)
    (c s : α) (hcs : c ^ 2 + s ^ 2 = 1) (i : Nat) (hi : 0 < i) (hin : i < n) (Q Q' : List α)
    (h : RowRot pos n n c s i Q Q') (hQ : ColOrtho pos n Q) : ColOrtho pos n Q' := by
  intro k l hk hl
  rw [RowRot_col_inner pos n n c s hcs i hi hin Q Q' h k l hk hl]
  exact hQ k l hk hl

/-- One step of `qr_impl` at `(j, i)` returns, and it applies one plane rotation `(c, s)`,
`c² + s² = 1`, to rows `i - 1`, `i` of both buffers; the rotation is the identity when the
entry `(i, j)` is skipped, and otherwise it annihilates that entry. -/
theorem qr_impl_step_spec (tiny : ℝ) (htiny : 0 ≤ tiny) (n p j i : Nat) (hi : 0 < i)
    (hin : i < n) (hj : j < p) (Q R : List ℝ) (hQ : Q.length = n * n) (hR : R.length = n * p) :
    ∃ Q' R' c s, qr_impl_step Real.sqrt tiny n p j i (Q, R) = some (Q', R') ∧
      c ^ 2 + s ^ 2 = 1 ∧
      RowRot (colMajor n) n n c s i Q Q' ∧ RowRot (colMajor n) n p c s i R R' ∧
      ((|R.getD (colMajor n i j) 0| ≤ tiny ∧ c = 1 ∧ s = 0) ∨
        (tiny < |R.getD (colMajor n i j) 0| ∧
          -s * R.getD (colMajor n (i - 1) j) 0 + c * R.getD (colMajor n i j) 0 = 0 ∧
          (c * R.getD (colMajor n (i - 1) j) 0 + s * R.getD (colMajor n i j) 0) ^ 2 =
            R.getD (colMajor n (i - 1) j) 0 ^ 2 + R.getD (colMajor n i j) 0 ^ 2)) := by
  have hlen : R.length = p * n := by rw [hR, Nat.mul_comm]
  have hb : j * n + i < R.length := by rw [hlen]; exact idx_lt hin hj
  have ha : j * n + (i - 1) < R.length := by rw [hlen]; exact idx_lt (by omega) hj
  unfold qr_impl_step
  simp only [colMajor]
  rw [getElem?_eq_some_getD hb, getElem?_eq_some_getD ha]
  simp only [Option.some_bind]
  by_cases hskip : |R.getD (j * n + i) 0| ≤ tiny
  · refine ⟨Q, R, 1, 0, by rw [if_pos hskip], by norm_num, RowRot_refl _ _ _ _ _,
      RowRot_refl _ _ _ _ _, Or.inl ⟨hskip, rfl, rfl⟩⟩
  · have hlt : tiny < |R.getD (j * n + i) 0| := not_le.mp hskip
    have hb0 : R.getD (j * n + i) 0 ≠ 0 := by
      intro e
      rw [e, abs_zero] at hlt
      exact absurd hlt (not_lt.mpr htiny)
    obtain ⟨c, s, hg, hcs, hann, hnorm⟩ :=
      givens_rotation_real (R.getD (j * n + (i - 1)) 0) (R.getD (j * n + i) 0) (Or.inr hb0)
    obtain ⟨R', hR', hrot⟩ := qr_impl_R_loop c s n p i hi hin R hR
    obtain ⟨Q', hQ', hrotQ⟩ := qr_impl_Q_loop c s n i hi hin Q hQ
    refine ⟨Q', R', c, s, ?_, hcs, hrotQ, hrot, Or.inr ⟨hlt, hann, hnorm⟩⟩
    rw [if_neg hskip, hg]
    simp only [Option.some_bind]
    rw [hR']
    simp only [Option.some_bind]
    rw [hQ']
    simp only [Option.some_bind]

/-- One step of `qr_impl2` at `(j, i)`: as `qr_impl_step_spec`, in the row-major layout. -/
theorem qr_impl2_step_spec (tiny : ℝ) (htiny : 0 ≤ tiny) (n p j i : Nat) (hi : 0 < i)
    (hin : i < n) (hj : j < p) (Q R : List ℝ) (hQ : Q.length = n * n) (hR : R.length = n * p) :
    ∃ Q' R' c s, qr_impl2_step Real.sqrt tiny n p j i (Q, R) = some (Q', R') ∧
      c ^ 2 + s ^ 2 = 1 ∧
      RowRot (rowMajor n) n n c s i Q Q' ∧ RowRot (rowMajor p) n p c s i R R' ∧
      ((|R.getD (rowMajor p i j) 0| ≤ tiny ∧ c = 1 ∧ s = 0) ∨
        (tiny < |R.getD (rowMajor p i j) 0| ∧
          -s * R.getD (rowMajor p (i - 1) j) 0 + c * R.getD (rowMajor p i j) 0 = 0 ∧
          (c * R.getD (rowMajor p (i - 1) j) 0 + s * R.getD (rowMajor p i j) 0) ^ 2 =
            R.getD (rowMajor p (i - 1) j) 0 ^ 2 + R.getD (rowMajor p i j) 0 ^ 2)) := by
  have hb : i * p + j < R.length := by rw [hR]; exact idx_lt hj hin
  have ha : (i - 1) * p + j < R.length := by rw [hR]; exact idx_lt hj (by omega)
  unfold qr_impl2_step
  simp only [rowMajor]
  rw [getElem?_eq_some_getD hb, getElem?_eq_some_getD ha]
  simp only [Option.some_bind]
  by_cases hskip : |R.getD (i * p + j) 0| ≤ tiny
  · refine ⟨Q, R, 1, 0, by rw [if_pos hskip], by norm_num, RowRot_refl _ _ _ _ _,
      RowRot_refl _ _ _ _ _, Or.inl ⟨hskip, rfl, rfl⟩⟩
  · have hlt : tiny < |R.getD (i * p + j) 0| := not_le.mp hskip
    have hb0 : R.getD (i * p + j) 0 ≠ 0 := by
      intro e
      rw [e, abs_zero] at hlt
      exact absurd hlt (not_lt.mpr htiny)
    obtain ⟨c, s, hg, hcs, hann, hnorm⟩ :=
      givens_rotation_real (R.getD ((i - 1) * p + j) 0) (R.getD (i * p + j) 0) (Or.inr hb0)
    obtain ⟨R', hR', hrot⟩ := qr_impl2_R_loop c s n p i hi hin R hR
    obtain ⟨Q', hQ', hrotQ⟩ := qr_impl2_Q_loop c s n i hi hin Q hQ
    refine ⟨Q', R', c, s, ?_, hcs, hrotQ, hrot, Or.inr ⟨hlt, hann, hnorm⟩⟩
    rw [if_neg hskip, hg]
    simp only [Option.some_bind]
    rw [hR']
    simp only [Option.some_bind]
    rw [hQ']
    simp only [Option.some_bind]

/-! ## `make_identity` -/

theorem make_identity_aux [LinearOrderedField α] (n m : Nat) (hm : m ≤ n) :
    ((List.range m).foldl (fun result i => result.set (i * n + i) (1 : α))
        (List.replicate (n * n) 0)).length = n * n ∧
    ∀ i j, i < n → j < n →
      ((List.range m).foldl (fun result i => result.set (i * n + i) (1 : α))
        (List.replicate (n * n) 0)).getD (i * n + j) 0 = if i = j ∧ i < m then 1 else 0 := by
  induction m with
  | zero =>
    refine ⟨by simp, fun i j hi hj => ?_⟩
    have hlt : i * n + j < n * n := idx_lt hj hi
    simp [List.getD_eq_getElem?_getD, List.getElem?_replicate, hlt]
  | succ m ih =>
    obtain ⟨hlen, hget⟩ := ih (by omega)
    rw [List.range_succ, List.foldl_append]
    simp only [List.foldl_cons, List.foldl_nil]
    refine ⟨by rw [List.length_set, hlen], fun i j hi hj => ?_⟩
    have hlt : m * n + m < n * n := idx_lt (by omega) (by omega)
    rw [getD_set _ _ (by rw [hlen]; exact hlt), hget i j hi hj]
    by_cases he : i * n + j = m * n + m
    · obtain ⟨h1, h2⟩ := idx_inj hj (by omega) he
      subst h1; subst h2
      simp
    · rw [if_neg he]
      by_cases hij : i = j
      · subst hij
        have him : i ≠ m := fun e => he (by rw [e])
        have h1 : (i < m + 1) ↔ (i < m) := by omega
        simp [h1]
      · simp [hij]

/-- The vector `make_identity(n)` has length `n * n` and holds the identity matrix. -/
theorem make_identity_spec [LinearOrderedField α] (n : Nat) :
    (make_identity n : List α).length = n * n ∧
    ∀ i j, i < n → j < n →
      (make_identity n : List α).getD (i * n + j) 0 = if i = j then 1 else 0 := by
  obtain ⟨h1, h2⟩ := make_identity_aux (α := α) n n (le_refl n)
  refine ⟨h1, fun i j hi hj => ?_⟩
  have := h2 i j hi hj
  unfold make_identity
  rw [this]
  simp [hi]

theorem make_identity_ColOrtho_colMajor [LinearOrderedField α] (n : Nat) :
    ColOrtho (colMajor n) n (make_identity n : List α) := by
  intro k l hk hl
  have h : ∀ r, r ∈ Finset.range n →
      (make_identity n : List α).getD (colMajor n r k) 0 *
        (make_identity n : List α).getD (colMajor n r l) 0 =
      if r = k then (if k = l then 1 else 0) else 0 := by
    intro r hr
    have hr' := Finset.mem_range.mp hr
    unfold colMajor
    rw [(make_identity_spec n).2 k r hk hr', (make_identity_spec n).2 l r hl hr']
    by_cases h1 : k = r
    · subst h1
      by_cases h2 : l = k
      · subst h2; simp
      · have h3 : ¬ k = l := fun e => h2 e.symm
        simp [h2, h3]
    · have h3 : ¬ r = k := fun e => h1 e.symm
      simp [h1, h3]
  rw [Finset.sum_congr rfl h, Finset.sum_ite_eq' (Finset.range n) k]
  simp [hk]

theorem make_identity_ColOrtho_rowMajor [LinearOrderedField α] (n : Nat) :
    ColOrtho (rowMajor n) n (make_identity n : List α) := by
  intro k l hk hl
  have h : ∀ r, r ∈ Finset.range n →
      (make_identity n : List α).getD (rowMajor n r k) 0 *
        (make_identity n : List α).getD (rowMajor n r l) 0 =
      if r = k then (if k = l then 1 else 0) else 0 := by
    intro r hr
    have hr' := Finset.mem_range.mp hr
    unfold rowMajor
    rw [(make_identity_spec n).2 r k hr' hk, (make_identity_spec n).2 r l hr' hl]
    by_cases h1 : r = k
    · subst h1
      simp
    · simp [h1]
  rw [Finset.sum_congr rfl h, Finset.sum_ite_eq' (Finset.range n) k]
  simp [hk]

/-! ## The sweep -/

theorem pred_size_t_of_pos {n : Nat} (hn : 0 < n) : pred_size_t n = n - 1 := by
  unfold pred_size_t
  rw [if_neg (by omega)]

/-- Invariant rule for the double loop of the sweeps: `Inv j i` holds before row `i` of
column `j` is processed, `Inv j j` when column `j` is finished. -/
theorem sweep_inv {σ : Type} (step : Nat → Nat → σ → Option σ) (Inv : Nat → Nat → σ → Prop)
    (n p : Nat) (hn : 0 < n) (hpn : p ≤ n) (s0 : σ) (h0 : Inv 0 (n - 1) s0)
    (hstep : ∀ j i s, j < p → j < i → i < n → Inv j i s →
      ∃ s', step j i s = some s' ∧ Inv j (i - 1) s')
    (hnext : ∀ j s, j < p → Inv j j s → Inv (j + 1) (n - 1) s) :
    ∃ s', forUp (fun j st => forDown (step j) j (pred_size_t n) st) p s0 = some s' ∧
      Inv p (n - 1) s' := by
  rw [pred_size_t_of_pos hn]
  apply forUp_inv _ (fun j s => Inv j (n - 1) s) p s0 h0
  intro j s hj hI
  obtain ⟨s', hs', hI'⟩ := forDown_inv (step j) (fun i s => Inv j i s) j (n - 1) (by omega) s hI
    (fun i s1 hji hin hI1 => hstep j i s1 hj hji (by omega) hI1)
  exact ⟨s', hs', hnext j s' hj hI'⟩

theorem cleanup_R_length [LinearOrderedField α] (tol : α) (R : List α) :
    (cleanup_R tol R).length = R.length := by
  simp [cleanup_R]

/-- The sweep `qr_impl` returns on well-sized buffers, keeps their sizes, and keeps the
columns of the accumulator (entry `(r, k)` at `Q[k * n + r]`) orthonormal. -/
theorem qr_impl_ortho (tiny : ℝ) (htiny : 0 ≤ tiny) (cleanup : Bool) (n p : Nat) (hn : 0 < n)
    (hpn : p ≤ n) (Q R : List ℝ) (hQ : Q.length = n * n) (hR : R.length = n * p)
    (hO : ColOrtho (colMajor n) n Q) (tol : ℝ) :
    ∃ Q' R', qr_impl Real.sqrt tiny cleanup Q R n p tol = some (Q', R') ∧
      Q'.length = n * n ∧ R'.length = n * p ∧ ColOrtho (colMajor n) n Q' := by
  obtain ⟨st, hst, hl1, hl2, hO'⟩ := sweep_inv (qr_impl_step Real.sqrt tiny n p)
    (fun _ _ st => st.1.length = n * n ∧ st.2.length = n * p ∧ ColOrtho (colMajor n) n st.1)
    n p hn hpn (Q, R) ⟨hQ, hR, hO⟩
    (fun j i s hj hji hin ⟨h1, h2, h3⟩ => by
      obtain ⟨Q', R', c, s', hs, hcs, hrQ, hrR, _⟩ :=
        qr_impl_step_spec tiny htiny n p j i (by omega) hin hj s.1 s.2 h1 h2
      exact ⟨(Q', R'), hs, by rw [hrQ.1, h1], by rw [hrR.1, h2],
        RowRot_ColOrtho _ n c s' hcs i (by omega) hin s.1 Q' hrQ h3⟩)
    (fun _ _ _ h => h)
  unfold qr_impl
  rw [hst]
  simp only [Option.some_bind]
  cases cleanup
  · exact ⟨st.1, st.2, by simp, hl1, hl2, hO'⟩
  · exact ⟨st.1, cleanup_R tol st.2, by simp, hl1, by rw [cleanup_R_length, hl2], hO'⟩

/-- The sweep `qr_impl2` returns on well-sized buffers, keeps their sizes, and keeps the
columns of the accumulator (entry `(r, k)` at `Q[r * n + k]`) orthonormal. -/
theorem qr_impl2_ortho (tiny : ℝ) (htiny : 0 ≤ tiny) (cleanup : Bool) (n p : Nat) (hn : 0 < n)
    (hpn : p ≤ n) (Q R : List ℝ) (hQ : Q.length = n * n) (hR : R.length = n * p)
    (hO : ColOrtho (rowMajor n) n Q) (tol : ℝ) :
    ∃ Q' R', qr_impl2 Real.sqrt tiny cleanup Q R n p tol = some (Q', R') ∧
      Q'.length = n * n ∧ R'.length = n * p ∧ ColOrtho (rowMajor n) n Q' := by
  obtain ⟨st, hst, hl1, hl2, hO'⟩ := sweep_inv (qr_impl2_step Real.sqrt tiny n p)
    (fun _ _ st => st.1.length = n * n ∧ st.2.length = n * p ∧ ColOrtho (rowMajor n) n st.1)
    n p hn hpn (Q, R) ⟨hQ, hR, hO⟩
    (fun j i s hj hji hin ⟨h1, h2, h3⟩ => by
      obtain ⟨Q', R', c, s', hs, hcs, hrQ, hrR, _⟩ :=
        qr_impl2_step_spec tiny htiny n p j i (by omega) hin hj s.1 s.2 h1 h2
      exact ⟨(Q', R'), hs, by rw [hrQ.1, h1], by rw [hrR.1, h2],
        RowRot_ColOrtho _ n c s' hcs i (by omega) hin s.1 Q' hrQ h3⟩)
    (fun _ _ _ h => h)
  unfold qr_impl2
  rw [hst]
  simp only [Option.some_bind]
  cases cleanup
  · exact ⟨st.1, st.2, by simp, hl1, hl2, hO'⟩
  · exact ⟨st.1, cleanup_R tol st.2, by simp, hl1, by rw [cleanup_R_length, hl2], hO'⟩

/-! ## `transpose_square` -/

/-- The inner loop of `transpose_square` at row `i` swaps the entries `(j, i)` and `(i, j)`
for `i < j < p`. -/
theorem transpose_square_inner [Zero α] (p i : Nat) (hi : i < p) (X : List α)
    (hX : X.length = p * p) :
    ∃ X', forRange (i + 1) p (fun j X2 => swap_at X2 (j * p + i) (i * p + j)) X = some X' ∧
      X'.length = p * p ∧
      ∀ a b, a < p → b < p → X'.getD (a * p + b) 0 =
        if (a = i ∧ i < b) ∨ (b = i ∧ i < a) then X.getD (b * p + a) 0
        else X.getD (a * p + b) 0 := by
  obtain ⟨X', hX', hlen, hget⟩ := forRange_inv
    (fun j X2 => swap_at X2 (j * p + i) (i * p + j))
    (fun j X1 => X1.length = p * p ∧ ∀ a b, a < p → b < p → X1.getD (a * p + b) 0 =
        if (a = i ∧ i < b ∧ b < j) ∨ (b = i ∧ i < a ∧ a < j) then X.getD (b * p + a) 0
        else X.getD (a * p + b) 0)
    (i + 1) p (by omega) X
    ⟨hX, fun a b _ _ => by
      have : ¬ ((a = i ∧ i < b ∧ b < i + 1) ∨ (b = i ∧ i < a ∧ a < i + 1)) := by omega
      rw [if_neg this]⟩
    (fun j X1 hij hjp ⟨hl, hg⟩ => by
      obtain ⟨X2, hX2, hl2, hg2⟩ := swap_at_spec X1 (j * p + i) (i * p + j)
        (by rw [hl]; exact idx_lt hi hjp) (by rw [hl]; exact idx_lt hjp hi)
      refine ⟨X2, hX2, by rw [hl2, hl], fun a b ha hb => ?_⟩
      rw [hg2, hg j i hjp hi, hg i j hi hjp]
      have e1 : ¬ ((j = i ∧ i < i ∧ i < j) ∨ (i = i ∧ i < j ∧ j < j)) := by omega
      have e2 : ¬ ((i = i ∧ i < j ∧ j < j) ∨ (j = i ∧ i < i ∧ i < j)) := by omega
      rw [if_neg e1, if_neg e2]
      by_cases h1 : a * p + b = i * p + j
      · obtain ⟨ha', hb'⟩ := idx_inj hb hjp h1
        subst ha'; subst hb'
        have : (a = a ∧ a < b ∧ b < b + 1) ∨ (b = a ∧ a < a ∧ a < b + 1) := by omega
        rw [if_pos h1, if_pos this]
      · rw [if_neg h1]
        by_cases h2 : a * p + b = j * p + i
        · obtain ⟨ha', hb'⟩ := idx_inj hb hi h2
          subst ha'; subst hb'
          have : (a = b ∧ b < b ∧ b < a + 1) ∨ (b = b ∧ b < a ∧ a < a + 1) := by omega
          rw [if_pos h2, if_pos this]
        · rw [if_neg h2, hg a b ha hb]
          have hne1 : ¬ (a = i ∧ b = j) := fun ⟨e1, e2⟩ => h1 (by rw [e1, e2])
          have hne2 : ¬ (a = j ∧ b = i) := fun ⟨e1, e2⟩ => h2 (by rw [e1, e2])
          have : ((a = i ∧ i < b ∧ b < j) ∨ (b = i ∧ i < a ∧ a < j)) ↔
              ((a = i ∧ i < b ∧ b < j + 1) ∨ (b = i ∧ i < a ∧ a < j + 1)) := by omega
          simp only [this])
  refine ⟨X', hX', hlen, fun a b ha hb => ?_⟩
  rw [hget a b ha hb]
  have : ((a = i ∧ i < b ∧ b < p) ∨ (b = i ∧ i < a ∧ a < p)) ↔
      ((a = i ∧ i < b) ∨ (b = i ∧ i < a)) := by omega
  simp only [this]

/-- On a vector of length `p * p`, `transpose_square` returns the transposed matrix. -/
theorem transpose_square_spec [Zero α] (p : Nat) (X : List α) (hX : X.length = p * p) :
    ∃ X', transpose_square X p = some X' ∧ X'.length = p * p ∧
      ∀ a b, a < p → b < p → X'.getD (a * p + b) 0 = X.getD (b * p + a) 0 := by
  obtain ⟨X', hX', hlen, hget⟩ := forUp_inv
    (fun i X1 => forRange (i + 1) p (fun j X2 => swap_at X2 (j * p + i) (i * p + j)) X1)
    (fun i X1 => X1.length = p * p ∧ ∀ a b, a < p → b < p → X1.getD (a * p + b) 0 =
        if a < i ∨ b < i then X.getD (b * p + a) 0 else X.getD (a * p + b) 0)
    p X ⟨hX, fun a b _ _ => by simp⟩
    (fun i X1 hi ⟨hl, hg⟩ => by
      obtain ⟨X2, hX2, hl2, hg2⟩ := transpose_square_inner p i hi X1 hl
      refine ⟨X2, hX2, hl2, fun a b ha hb => ?_⟩
      rw [hg2 a b ha hb, hg a b ha hb, hg b a hb ha]
      by_cases hab : a = b
      · subst hab
        simp
      · by_cases h1 : (a = i ∧ i < b) ∨ (b = i ∧ i < a)
        · have h2 : ¬ (b < i ∨ a < i) := by omega
          have h3 : a < i + 1 ∨ b < i + 1 := by omega
          rw [if_pos h1, if_neg h2, if_pos h3]
        · rw [if_neg h1]
          have : (a < i ∨ b < i) ↔ (a < i + 1 ∨ b < i + 1) := by omega
          simp only [this])
  refine ⟨X', hX', hlen, fun a b ha hb => ?_⟩
  rw [hget a b ha hb, if_pos (Or.inl ha)]

/-! ## The input transposition and the compaction of the facade -/

/-- The input transposition returns and stores `X[j * n + i]` at `R[i * p + j]`. -/
theorem transpose_input_spec [Zero α] (n p : Nat) (X R : List α) (hX : X.length = n * p)
    (hR : R.length = n * p) :
    ∃ R', transpose_input X R n p = some R' ∧ R'.length = n * p ∧
      ∀ i j, i < n → j < p → R'.getD (i * p + j) 0 = X.getD (j * n + i) 0 := by
  have hXl : X.length = p * n := by rw [hX, Nat.mul_comm]
  apply forUp_inv _ (fun i R1 => R1.length = n * p ∧
      ∀ a b, a < i → b < p → R1.getD (a * p + b) 0 = X.getD (b * n + a) 0) n R
    ⟨hR, fun a b ha _ => absurd ha (Nat.not_lt_zero a)⟩
  intro i R1 hi ⟨hl, hg⟩
  obtain ⟨R3, hR3, hl3, hg3⟩ := forUp_inv
    (fun j R2 => (X[j * n + i]?).bind fun x => write R2 (i * p + j) x)
    (fun j R2 => R2.length = n * p ∧
      ∀ a b, a < i ∨ (a = i ∧ b < j) → b < p → R2.getD (a * p + b) 0 = X.getD (b * n + a) 0)
    p R1 ⟨hl, fun a b hab hb => hg a b (by omega) hb⟩
    (fun j R2 hj ⟨hl2, hg2⟩ => by
      have hw : i * p + j < R2.length := by rw [hl2]; exact idx_lt hj hi
      refine ⟨R2.set (i * p + j) (X.getD (j * n + i) 0), ?_, by rw [List.length_set, hl2], ?_⟩
      · dsimp only
        rw [getElem?_eq_some_getD (by rw [hXl]; exact idx_lt hi hj)]
        simp only [Option.some_bind]
        exact write_of_lt _ _ hw
      · intro a b hab hb
        rw [getD_set _ _ hw]
        by_cases he : a * p + b = i * p + j
        · obtain ⟨h1, h2⟩ := idx_inj hb hj he
          subst h1; subst h2
          rw [if_pos he]
        · rw [if_neg he]
          apply hg2 a b _ hb
          have : ¬ (a = i ∧ b = j) := fun ⟨e1, e2⟩ => he (by rw [e1, e2])
          omega)
  exact ⟨R3, hR3, hl3, fun a b ha hb => hg3 a b (by omega) hb⟩

/-- The compaction returns, keeps the length of `R`, and moves entry `R[i * n + j]` to
`R[i * p + j]` for `i, j < p`; no read hits a slot that was already overwritten. -/
theorem compact_R_spec [Zero α] (n p : Nat) (hpn : p ≤ n) (R : List α) (hR : R.length = n * p) :
    ∃ st, compact_R R n p = some st ∧ st.1.length = n * p ∧ st.2 = p * p ∧
      ∀ i j, i < p → j < p → st.1.getD (i * p + j) 0 = R.getD (i * n + j) 0 := by
  have hRl : R.length = p * n := by rw [hR, Nat.mul_comm]
  obtain ⟨st, hst, hl, hk, hg, _⟩ := forUp_inv
    (fun i st1 => forUp (fun j st2 =>
      (st2.1[i * n + j]?).bind fun x =>
      (write st2.1 st2.2 x).bind fun R1 => some (R1, st2.2 + 1)) p st1)
    (fun i (st : List α × Nat) => st.1.length = n * p ∧ st.2 = i * p ∧
      (∀ a b, a < i → b < p → st.1.getD (a * p + b) 0 = R.getD (a * n + b) 0) ∧
      (∀ t, i * p ≤ t → st.1.getD t 0 = R.getD t 0))
    p (R, 0) ⟨hR, by simp, fun a b ha _ => absurd ha (Nat.not_lt_zero a), fun t _ => rfl⟩
    (fun i st1 hi ⟨hl, hk, hg, hrest⟩ => by
      obtain ⟨st2, hst2, hl2, hk2, hg2, hrest2⟩ := forUp_inv
        (fun j (st2 : List α × Nat) =>
          (st2.1[i * n + j]?).bind fun x =>
          (write st2.1 st2.2 x).bind fun R1 => some (R1, st2.2 + 1))
        (fun j (st : List α × Nat) => st.1.length = n * p ∧ st.2 = i * p + j ∧
          (∀ a b, a < i ∨ (a = i ∧ b < j) → b < p →
            st.1.getD (a * p + b) 0 = R.getD (a * n + b) 0) ∧
          (∀ t, i * p + j ≤ t → st.1.getD t 0 = R.getD t 0))
        p st1 ⟨hl, by rw [hk]; rfl, fun a b hab hb => hg a b (by omega) hb,
          fun t ht => hrest t (by omega)⟩
        (fun j st2 hj ⟨hl2, hk2, hg2, hrest2⟩ => by
          have hip : i * p ≤ i * n := Nat.mul_le_mul_left i hpn
          have hr : i * n + j < st2.1.length := by
            rw [hl2, Nat.mul_comm n p]; exact idx_lt (by omega) hi
          have hw : st2.2 < st2.1.length := by
            rw [hl2, hk2]
            have h1 : i * p + j < p * p := idx_lt hj hi
            have h2 : p * p ≤ n * p := Nat.mul_le_mul_right p hpn
            omega
          have hval : st2.1.getD (i * n + j) 0 = R.getD (i * n + j) 0 :=
            hrest2 _ (by omega)
          refine ⟨(st2.1.set st2.2 (R.getD (i * n + j) 0), st2.2 + 1), ?_,
            by simp [hl2], by simp [hk2]; ring, ?_, ?_⟩
          · dsimp only
            rw [getElem?_eq_some_getD hr, hval]
            simp only [Option.some_bind]
            rw [write_of_lt _ _ hw]
            simp only [Option.some_bind]
          · intro a b hab hb
            simp only
            rw [getD_set _ _ hw, hk2]
            by_cases he : a * p + b = i * p + j
            · obtain ⟨h1, h2⟩ := idx_inj hb hj he
              subst h1; subst h2
              rw [if_pos he]
            · rw [if_neg he]
              apply hg2 a b _ hb
              have : ¬ (a = i ∧ b = j) := fun ⟨e1, e2⟩ => he (by rw [e1, e2])
              omega
          · intro t ht
            simp only
            rw [getD_set _ _ hw, hk2, if_neg (by omega)]
            exact hrest2 t (by omega))
      refine ⟨st2, hst2, hl2, by rw [hk2]; ring, fun a b ha hb => hg2 a b (by omega) hb,
        fun t ht => hrest2 t (by
          have : (i + 1) * p = i * p + p := by ring
          omega)⟩)
  exact ⟨st, hst, hl, hk, fun i j hi hj => hg i j hi hj⟩

/-! ## `resize` -/

theorem resize_length [Zero α] (X : List α) (m : Nat) : (resize X m).length = m := by
  simp [resize]
  omega

theorem resize_getD [Zero α] (X : List α) (m t : Nat) (hm : m ≤ X.length) (ht : t < m) :
    (resize X m).getD t 0 = X.getD t 0 := by
  have h0 : m - X.length = 0 := by omega
  simp [resize, h0, List.getD_eq_getElem?_getD, List.getElem?_take, ht]

/-! ## The facade -/

theorem eq_replicate_zero_of_getD [Zero α] (L : List α) (m : Nat) (hl : L.length = m)
    (h : ∀ t, t < m → L.getD t 0 = 0) : L = List.replicate m 0 := by
  apply List.ext_getElem (by simp [hl])
  intro t h1 h2
  have := h t (by omega)
  rw [List.getD_eq_getElem?_getD, List.getElem?_eq_getElem h1] at this
  simpa using this

/-- Orthonormal columns in one orientation of a square buffer are orthonormal columns in
the transposed orientation (a left inverse of a square matrix is a right inverse). -/
theorem ColOrtho_colMajor_rowMajor [LinearOrderedField α] (n : Nat) (Q : List α)
    (h : ColOrtho (colMajor n) n Q) : ColOrtho (rowMajor n) n Q := by
  let M : Matrix (Fin n) (Fin n) α := fun a b => Q.getD (a * n + b) 0
  have h1 : M * M.transpose = 1 := by
    ext k l
    rw [Matrix.mul_apply, Matrix.one_apply]
    have := h k l k.isLt l.isLt
    rw [Finset.sum_range] at this
    simp only [colMajor] at this
    simp only [Matrix.transpose_apply, M]
    rw [this]
    simp [Fin.ext_iff]
  have h2 : M.transpose * M = 1 := Matrix.mul_eq_one_comm.mp h1
  intro k l hk hl
  have := congrFun (congrFun h2 ⟨k, hk⟩) ⟨l, hl⟩
  rw [Matrix.mul_apply, Matrix.one_apply] at this
  simp only [Matrix.transpose_apply, M] at this
  rw [Finset.sum_range]
  simp only [rowMajor]
  rw [this]
  simp [Fin.ext_iff]

/-- Run of the `baseline` facade on a well-sized input: every stage returns, and the result
is the truncated transpose of the swept accumulator together with an all-zero `R`. -/
theorem qr_decomposition_baseline_run (tiny : ℝ) (htiny : 0 ≤ tiny) (X : List ℝ) (n p : Nat)
    (hp : 0 < p) (hpn : p ≤ n) (hX : X.length = n * p) (tol : ℝ) :
    ∃ Qs Rs Qt, qr_impl Real.sqrt tiny true (make_identity n) X n p tol = some (Qs, Rs) ∧
      Qs.length = n * n ∧ Rs.length = n * p ∧ ColOrtho (colMajor n) n Qs ∧
      transpose_square Qs n = some Qt ∧ Qt.length = n * n ∧
      (∀ a b, a < n → b < n → Qt.getD (a * n + b) 0 = Qs.getD (b * n + a) 0) ∧
      qr_decomposition Real.sqrt tiny QRImpl.baseline X n p tol =
        some ⟨resize Qt (n * p), List.replicate (p * p) 0⟩ := by
  obtain ⟨Qs, Rs, hrun, hQl, hRl, hO⟩ := qr_impl_ortho tiny htiny true n p (by omega) hpn
    (make_identity n) X (make_identity_spec n).1 hX (make_identity_ColOrtho_colMajor n) tol
  obtain ⟨Qt, hQt, hQtl, hQtg⟩ := transpose_square_spec n Qs hQl
  obtain ⟨st, hst, hstl, _, hstg⟩ := compact_R_spec n p hpn (List.replicate X.length (0 : ℝ))
    (by simp [hX])
  refine ⟨Qs, Rs, Qt, hrun, hQl, hRl, hO, hQt, hQtl, hQtg, ?_⟩
  have hz : resize st.1 (p * p) = List.replicate (p * p) 0 := by
    apply eq_replicate_zero_of_getD _ _ (resize_length _ _)
    intro t ht
    have hpp : p * p ≤ n * p := Nat.mul_le_mul_right p hpn
    rw [resize_getD _ _ _ (by rw [hstl]; exact hpp) ht]
    have hdm : t / p * p + t % p = t := Nat.div_add_mod' t p
    have h1 : t / p < p := Nat.div_lt_of_lt_mul ht
    have h2 : t % p < p := Nat.mod_lt _ hp
    rw [← hdm, hstg _ _ h1 h2]
    have hlt : t / p * n + t % p < X.length := by
      rw [hX, Nat.mul_comm n p]; exact idx_lt (by omega) h1
    simp [List.getD_eq_getElem?_getD, List.getElem?_replicate, hlt]
  unfold qr_decomposition
  simp only [hrun, Option.some_bind, hQt, hst, hz]

/-- Run of the `transpose` facade on a well-sized input: every stage returns. -/
theorem qr_decomposition_transpose_run (tiny : ℝ) (htiny : 0 ≤ tiny) (X : List ℝ) (n p : Nat)
    (hp : 0 < p) (hpn : p ≤ n) (hX : X.length = n * p) (tol : ℝ) :
    ∃ R0 Qs Rs Qt Rc, transpose_input X (List.replicate X.length 0) n p = some R0 ∧
      R0.length = n * p ∧
      (∀ i j, i < n → j < p → R0.getD (i * p + j) 0 = X.getD (j * n + i) 0) ∧
      qr_impl2 Real.sqrt tiny true (make_identity n) R0 n p tol = some (Qs, Rs) ∧
      Qs.length = n * n ∧ Rs.length = n * p ∧ ColOrtho (rowMajor n) n Qs ∧
      transpose_square Qs n = some Qt ∧ Qt.length = n * n ∧
      (∀ a b, a < n → b < n → Qt.getD (a * n + b) 0 = Qs.getD (b * n + a) 0) ∧
      compact_R Rs n p = some (Rc, p * p) ∧ Rc.length = n * p ∧
      (∀ i j, i < p → j < p → Rc.getD (i * p + j) 0 = Rs.getD (i * n + j) 0) ∧
      qr_decomposition Real.sqrt tiny QRImpl.transpose X n p tol =
        some ⟨resize Qt (n * p), resize Rc (p * p)⟩ := by
  obtain ⟨R0, hR0, hR0l, hR0g⟩ := transpose_input_spec n p X (List.replicate X.length (0 : ℝ))
    hX (by simp [hX])
  obtain ⟨Qs, Rs, hrun, hQl, hRl, hO⟩ := qr_impl2_ortho tiny htiny true n p (by omega) hpn
    (make_identity n) R0 (make_identity_spec n).1 hR0l (make_identity_ColOrtho_rowMajor n) tol
  obtain ⟨Qt, hQt, hQtl, hQtg⟩ := transpose_square_spec n Qs hQl
  obtain ⟨st, hst, hstl, hstk, hstg⟩ := compact_R_spec n p hpn Rs hRl
  refine ⟨R0, Qs, Rs, Qt, st.1, hR0, hR0l, hR0g, hrun, hQl, hRl, hO, hQt, hQtl, hQtg, ?_, hstl,
    hstg, ?_⟩
  · rw [hst, ← hstk]
  · unfold qr_decomposition
    simp only [hR0, hrun, Option.some_bind, hQt, hst]

/-! ## Constants of the scalar type -/

theorem numeric_limits_min_pos [LinearOrderedField α] : (0 : α) < numeric_limits_min := by
  unfold numeric_limits_min
  positivity

theorem default_tol_pos [LinearOrderedField α] : (0 : α) < default_tol := by
  unfold default_tol
  positivity

/-! ## Results on the facade shared by several claims -/

/-- The first `p` columns of the returned `Q` are orthonormal as soon as the swept
accumulator has orthonormal columns in the row-major orientation. -/
theorem facade_Q_orthonormal (n p : Nat) (hpn : p ≤ n) (Qs Qt : List ℝ)
    (hQtl : Qt.length = n * n)
    (hQtg : ∀ a b, a < n → b < n → Qt.getD (a * n + b) 0 = Qs.getD (b * n + a) 0)
    (hO : ColOrtho (rowMajor n) n Qs) (k l : Nat) (hk : k < p) (hl : l < p) :
    ∑ i in Finset.range n, (resize Qt (n * p)).getD (k * n + i) 0 *
      (resize Qt (n * p)).getD (l * n + i) 0 = if k = l then 1 else 0 := by
  have hle : n * p ≤ Qt.length := by rw [hQtl]; exact Nat.mul_le_mul_left n hpn
  have hentry : ∀ c i, c < p → i < n →
      (resize Qt (n * p)).getD (c * n + i) 0 = Qs.getD (rowMajor n i c) 0 := by
    intro c i hc hi
    rw [resize_getD _ _ _ hle (by rw [Nat.mul_comm n p]; exact idx_lt hi hc),
      hQtg c i (by omega) hi]
    rfl
  rw [← hO k l (by omega) (by omega)]
  apply Finset.sum_congr rfl
  intro i hi
  have hi' := Finset.mem_range.mp hi
  rw [hentry k i hk hi', hentry l i hl hi']

/-- Value of the `baseline` facade on the 2×2 identity. -/
theorem qr_decomposition_baseline_identity2 :
    qr_decomposition Real.sqrt numeric_limits_min QRImpl.baseline [1, 0, 0, 1] 2 2 default_tol =
      some ⟨[1, 0, 0, 1], [0, 0, 0, 0]⟩ := by
  have h0 : (0 : ℝ) ≤ numeric_limits_min := numeric_limits_min_pos.le
  have h1 : ¬ (1 : ℝ) < default_tol := by
    rw [not_lt]; unfold default_tol; norm_num
  have h2 : (0 : ℝ) < default_tol := default_tol_pos
  simp [qr_decomposition, qr_impl, make_identity, forUp, forDown, forRange, pred_size_t,
    qr_impl_step, transpose_square, swap_at, write, compact_R, resize, cleanup_R, h0, h1, h2,
    List.range, List.range.loop]

/-! ## Invariants of the `baseline` sweep -/

/-- A rotation of the same two rows of two buffers by `(c, s)`, `c² + s² = 1`, preserves
the inner product of a column of the first with a column of the second. -/
theorem RowRot_inner_two [LinearOrderedField α] (pos1 pos2 : Nat → Nat → Nat)
    (n cols1 cols2 : Nat) (c s : α) (hcs : c ^ 2 + s ^ 2 = 1) (i : Nat) (hi : 0 < i)
    (hin : i < n) (B B' C C' : List α) (hB : RowRot pos1 n cols1 c s i B B')
    (hC : RowRot pos2 n cols2 c s i C C') (k l : Nat) (hk : k < cols1) (hl : l < cols2) :
    ∑ r in Finset.range n, B'.getD (pos1 r k) 0 * C'.getD (pos2 r l) 0 =
      ∑ r in Finset.range n, B.getD (pos1 r k) 0 * C.getD (pos2 r l) 0 := by
  have hne : i - 1 ≠ i := by omega
  apply sum_eq_of_two _ _ n (i - 1) i (by omega) hin hne
  · intro r hr h1 h2
    rw [hB.2 r k hr hk, hC.2 r l hr hl]
    simp only [h1, h2, if_false]
  · rw [hB.2 (i - 1) k (by omega) hk, hC.2 (i - 1) l (by omega) hl, hB.2 i k hin hk,
      hC.2 i l hin hl]
    have hne' : i ≠ i - 1 := fun e => hne e.symm
    simp only [if_true, hne', if_false]
    generalize B.getD (pos1 (i - 1) k) 0 = x
    generalize B.getD (pos1 i k) 0 = y
    generalize C.getD (pos2 (i - 1) l) 0 = z
    generalize C.getD (pos2 i l) 0 = w
    have : (c * x + s * y) * (c * z + s * w) + (-s * x + c * y) * (-s * z + c * w) =
        (c ^ 2 + s ^ 2) * (x * z + y * w) := by ring
    rw [this, hcs, one_mul]

/-- Invariant rule for the double loop of `qr_impl`, phrased on its effect: every step is a
plane rotation of rows `i - 1`, `i` of both buffers that is the identity on a skipped entry and
annihilates entry `(i, j)` otherwise. -/
theorem qr_impl_sweep_inv (tiny : ℝ) (htiny : 0 ≤ tiny) (n p : Nat) (hn : 0 < n) (hpn : p ≤ n)
    (Inv : Nat → Nat → List ℝ → List ℝ → Prop) (Q R : List ℝ) (hQ : Q.length = n * n)
    (hR : R.length = n * p) (h0 : Inv 0 (n - 1) Q R)
    (hstep : ∀ j i Q1 R1 Q2 R2 c s, j < p → j < i → i < n → Q1.length = n * n →
      R1.length = n * p → Inv j i Q1 R1 → c ^ 2 + s ^ 2 = 1 →
      RowRot (colMajor n) n n c s i Q1 Q2 → RowRot (colMajor n) n p c s i R1 R2 →
      ((|R1.getD (colMajor n i j) 0| ≤ tiny ∧ c = 1 ∧ s = 0) ∨
        (tiny < |R1.getD (colMajor n i j) 0| ∧
          -s * R1.getD (colMajor n (i - 1) j) 0 + c * R1.getD (colMajor n i j) 0 = 0 ∧
          (c * R1.getD (colMajor n (i - 1) j) 0 + s * R1.getD (colMajor n i j) 0) ^ 2 =
            R1.getD (colMajor n (i - 1) j) 0 ^ 2 + R1.getD (colMajor n i j) 0 ^ 2)) →
      Inv j (i - 1) Q2 R2)
    (hnext : ∀ j Q1 R1, j < p → Inv j j Q1 R1 → Inv (j + 1) (n - 1) Q1 R1) :
    ∃ Qs Rs, forUp (fun j st => forDown (qr_impl_step Real.sqrt tiny n p j) j (pred_size_t n) st)
        p (Q, R) = some (Qs, Rs) ∧
      Qs.length = n * n ∧ Rs.length = n * p ∧ Inv p (n - 1) Qs Rs := by
  obtain ⟨st, hst, hl1, hl2, hI⟩ := sweep_inv (qr_impl_step Real.sqrt tiny n p)
    (fun j i st => st.1.length = n * n ∧ st.2.length = n * p ∧ Inv j i st.1 st.2)
    n p hn hpn (Q, R) ⟨hQ, hR, h0⟩
    (fun j i st hj hji hin ⟨h1, h2, h3⟩ => by
      obtain ⟨Q', R', c, s', hs, hcs, hrQ, hrR, hd⟩ :=
        qr_impl_step_spec tiny htiny n p j i (by omega) hin hj st.1 st.2 h1 h2
      exact ⟨(Q', R'), hs, by rw [hrQ.1, h1], by rw [hrR.1, h2],
        hstep j i st.1 st.2 Q' R' c s' hj hji hin h1 h2 h3 hcs hrQ hrR hd⟩)
    (fun j st hj ⟨h1, h2, h3⟩ => ⟨h1, h2, hnext j st.1 st.2 hj h3⟩)
  exact ⟨st.1, st.2, hst, hl1, hl2, hI⟩

/-- The function `qr_impl` is its double loop followed by the optional cleanup of `R`. -/
theorem qr_impl_of_sweep [LinearOrderedField α] (sqrt : α → α) (tiny : α) (cleanup : Bool)
    (Q R Qs Rs : List α) (n p : Nat) (tol : α)
    (h : forUp (fun j st => forDown (qr_impl_step sqrt tiny n p j) j (pred_size_t n) st)
      p (Q, R) = some (Qs, Rs)) :
    qr_impl sqrt tiny cleanup Q R n p tol =
      some (Qs, if cleanup then cleanup_R tol Rs else Rs) := by
  unfold qr_impl
  rw [h]
  cases cleanup <;> simp

theorem list_sum_map_eq_sum_range [LinearOrderedField α] (f : α → α) (x : List α) :
    (x.map f).sum = ∑ i in Finset.range x.length, f (x.getD i 0) := by
  induction x with
  | nil => simp
  | cons a t ih =>
    rw [List.map_cons, List.sum_cons, List.length_cons, Finset.sum_range_succ', ih]
    simp [add_comm]

/-- A value whose square is the sum of the squares of entries that are each zero or above
the skip threshold is itself zero or above the threshold. -/
theorem zero_of_abs_le_tiny (tiny : ℝ) (f : Nat → ℝ) (S : Finset Nat) (v : ℝ)
    (hv : v ^ 2 = ∑ r in S, f r ^ 2) (hbig : ∀ r, r ∈ S → f r = 0 ∨ tiny < |f r|)
    (hle : |v| ≤ tiny) : v = 0 := by
  by_contra hne
  have hpos : ∑ r in S, f r ^ 2 ≠ 0 := by
    rw [← hv]; exact pow_ne_zero 2 hne
  obtain ⟨r, hr, hfr⟩ := Finset.exists_ne_zero_of_sum_ne_zero hpos
  have hfr0 : f r ≠ 0 := fun e => hfr (by rw [e]; norm_num)
  have hlt : tiny < |f r| := (hbig r hr).resolve_left hfr0
  have hle2 : f r ^ 2 ≤ v ^ 2 := by
    rw [hv]
    exact Finset.single_le_sum (f := fun r => f r ^ 2) (fun t _ => sq_nonneg (f t)) hr
  have : |f r| ≤ |v| := sq_le_sq.mp hle2
  linarith

/-! ## The single-column case -/

theorem colMajor_zero (n r : Nat) : colMajor n r 0 = r := by
  simp [colMajor]

/-- One elimination step keeps the single-column invariant. -/
theorem ColumnTail_step (tiny : ℝ) (x : List ℝ) (n i : Nat) (hi : 0 < i) (hin : i < n)
    (hbig : ∀ r, 0 < r → r < n → x.getD r 0 = 0 ∨ tiny < |x.getD r 0|)
    (R1 R2 : List ℝ) (c s : ℝ) (hT : ColumnTail x n i R1)
    (hrot : RowRot (colMajor n) n 1 c s i R1 R2)
    (hd : (|R1.getD (colMajor n i 0) 0| ≤ tiny ∧ c = 1 ∧ s = 0) ∨
      (tiny < |R1.getD (colMajor n i 0) 0| ∧
        -s * R1.getD (colMajor n (i - 1) 0) 0 + c * R1.getD (colMajor n i 0) 0 = 0 ∧
        (c * R1.getD (colMajor n (i - 1) 0) 0 + s * R1.getD (colMajor n i 0) 0) ^ 2 =
          R1.getD (colMajor n (i - 1) 0) 0 ^ 2 + R1.getD (colMajor n i 0) 0 ^ 2)) :
    ColumnTail x n (i - 1) R2 := by
  obtain ⟨hz, hx, hsq⟩ := hT
  have hget : ∀ r, r < n → R2.getD r 0 =
      if r = i - 1 then c * R1.getD (i - 1) 0 + s * R1.getD i 0
      else if r = i then -s * R1.getD (i - 1) 0 + c * R1.getD i 0 else R1.getD r 0 := by
    intro r hr
    have := hrot.2 r 0 hr (by decide)
    simpa only [colMajor_zero] using this
  simp only [colMajor_zero] at hd
  have hsplit : ∑ r in Finset.Ico (i - 1) n, x.getD r 0 ^ 2 =
      x.getD (i - 1) 0 ^ 2 + ∑ r in Finset.Ico i n, x.getD r 0 ^ 2 := by
    rw [Finset.sum_eq_sum_Ico_succ_bot (by omega : i - 1 < n)]
    have : i - 1 + 1 = i := by omega
    rw [this]
  have hnew_i : -s * R1.getD (i - 1) 0 + c * R1.getD i 0 = 0 := by
    rcases hd with ⟨hle, hc, hs⟩ | ⟨_, hann, _⟩
    · have h0 := zero_of_abs_le_tiny tiny (fun r => x.getD r 0) (Finset.Ico i n) _ hsq
        (fun r hr => hbig r (by have := (Finset.mem_Ico.mp hr).1; omega)
          (Finset.mem_Ico.mp hr).2) hle
      rw [hc, hs, h0]; ring
    · exact hann
  have hnew_up : (c * R1.getD (i - 1) 0 + s * R1.getD i 0) ^ 2 =
      R1.getD (i - 1) 0 ^ 2 + R1.getD i 0 ^ 2 := by
    rcases hd with ⟨hle, hc, hs⟩ | ⟨_, _, hnorm⟩
    · have h0 := zero_of_abs_le_tiny tiny (fun r => x.getD r 0) (Finset.Ico i n) _ hsq
        (fun r hr => hbig r (by have := (Finset.mem_Ico.mp hr).1; omega)
          (Finset.mem_Ico.mp hr).2) hle
      rw [hc, hs, h0]; ring
    · exact hnorm
  refine ⟨fun r hr hrn => ?_, fun r hr => ?_, ?_⟩
  · rw [hget r hrn, if_neg (by omega)]
    by_cases hri : r = i
    · rw [if_pos hri]; exact hnew_i
    · rw [if_neg hri]; exact hz r (by omega) hrn
  · rw [hget r (by omega), if_neg (by omega), if_neg (by omega)]
    exact hx r (by omega)
  · rw [hget (i - 1) (by omega), if_pos rfl, hnew_up, hsplit, hsq, hx (i - 1) (by omega)]

/-- The `baseline` sweep of a single column `x` whose entries below the first are each zero
or above the skip threshold: the accumulator stays orthonormal, the working `R` ends as
`(r, 0, ..., 0)` with `r² = ‖x‖²`, and `x = r · (column a ↦ Q[a * n])`. -/
theorem qr_impl_single_column (tiny : ℝ) (htiny : 0 ≤ tiny) (n : Nat) (hn : 0 < n)
    (x : List ℝ) (hx : x.length = n)
    (hbig : ∀ r, 0 < r → r < n → x.getD r 0 = 0 ∨ tiny < |x.getD r 0|) :
    ∃ Qs Rs, forUp (fun j st => forDown (qr_impl_step Real.sqrt tiny n 1 j) j (pred_size_t n) st)
        1 (make_identity n, x) = some (Qs, Rs) ∧
      Qs.length = n * n ∧ ColOrtho (colMajor n) n Qs ∧
      (∀ a, a < n → Qs.getD (a * n) 0 * Rs.getD 0 0 = x.getD a 0) ∧
      Rs.getD 0 0 ^ 2 = ∑ r in Finset.range n, x.getD r 0 ^ 2 := by
  obtain ⟨Qs, Rs, hrun, hQl, _, hO, hrec, hT⟩ := qr_impl_sweep_inv tiny htiny n 1 hn (by omega)
    (fun j i Q1 R1 => ColOrtho (colMajor n) n Q1 ∧
      (∀ a, a < n → ∑ k in Finset.range n,
        Q1.getD (colMajor n k a) 0 * R1.getD (colMajor n k 0) 0 = x.getD a 0) ∧
      ColumnTail x n (if j = 0 then i else 0) R1)
    (make_identity n) x (make_identity_spec n).1 (by rw [hx, Nat.mul_one])
    ⟨make_identity_ColOrtho_colMajor n, fun a ha => by
        have h : ∀ k, k ∈ Finset.range n →
            (make_identity n : List ℝ).getD (colMajor n k a) 0 * x.getD (colMajor n k 0) 0 =
            if k = a then x.getD a 0 else 0 := by
          intro k hk
          have hk' := Finset.mem_range.mp hk
          rw [colMajor_zero]
          unfold colMajor
          rw [(make_identity_spec n).2 a k ha hk']
          by_cases h1 : a = k
          · subst h1; simp
          · have h2 : ¬ k = a := fun e => h1 e.symm
            simp [h1, h2]
        rw [Finset.sum_congr rfl h, Finset.sum_ite_eq' (Finset.range n) a]
        simp [ha],
      by
        rw [if_pos rfl]
        refine ⟨fun r h1 h2 => by omega, fun r _ => rfl, ?_⟩
        have h1 : Finset.Ico (n - 1) n = {n - 1} := by
          ext r
          rw [Finset.mem_Ico, Finset.mem_singleton]
          omega
        rw [h1, Finset.sum_singleton]⟩
    (fun j i Q1 R1 Q2 R2 c s hj hji hin hl1 hl2 ⟨hO, hrec, hT⟩ hcs hrQ hrR hd => by
      have hj0 : j = 0 := by omega
      subst hj0
      rw [if_pos rfl] at hT
      refine ⟨RowRot_ColOrtho _ n c s hcs i hji hin Q1 Q2 hrQ hO, fun a ha => ?_, ?_⟩
      · rw [RowRot_inner_two (colMajor n) (colMajor n) n n 1 c s hcs i hji hin Q1 Q2 R1 R2
          hrQ hrR a 0 ha (by decide)]
        exact hrec a ha
      · rw [if_pos rfl]
        exact ColumnTail_step tiny x n i hji hin hbig R1 R2 c s hT hrR hd)
    (fun j Q1 R1 hj ⟨hO, hrec, hT⟩ => by
      have hj0 : j = 0 := by omega
      subst hj0
      rw [if_pos rfl] at hT
      exact ⟨hO, hrec, by rw [if_neg (by decide)]; exact hT⟩)
  rw [if_neg (by decide)] at hT
  obtain ⟨hz, _, hsq⟩ := hT
  refine ⟨Qs, Rs, hrun, hQl, hO, fun a ha => ?_, ?_⟩
  · rw [← hrec a ha]
    rw [Finset.sum_eq_single 0]
    · simp [colMajor]
    · intro k hk hk0
      rw [colMajor_zero, hz k (by omega) (Finset.mem_range.mp hk), mul_zero]
    · intro h
      exact absurd (Finset.mem_range.mpr hn) h
  · rw [hsq, Finset.range_eq_Ico]

/-! ## Evaluation on the 2×2 matrix with columns `(3, 4)` and `(0, 5)` -/

theorem numeric_limits_min_lt_one [LinearOrderedField α] : (numeric_limits_min : α) < 1 := by
  unfold numeric_limits_min
  rw [div_lt_one (by positivity)]
  exact one_lt_pow₀ (by norm_num) (by norm_num)

theorem default_tol_lt_one [LinearOrderedField α] : (default_tol : α) < 1 := by
  unfold default_tol
  rw [div_lt_one (by positivity)]
  exact one_lt_pow₀ (by norm_num) (by norm_num)

theorem givens_rotation_3_4 : givens_rotation Real.sqrt (3 : ℝ) 4 = some (3 / 5, 4 / 5) := by
  have hs : Real.sqrt (1 + (3 / 4 : ℝ) ^ 2) = 5 / 4 := by
    rw [show (1 + (3 / 4 : ℝ) ^ 2) = (5 / 4) ^ 2 by norm_num]
    exact Real.sqrt_sq (by norm_num)
  have hab : |(4 : ℝ)| > |(3 : ℝ)| := by
    rw [abs_of_pos (by norm_num : (0 : ℝ) < 4), abs_of_pos (by norm_num : (0 : ℝ) < 3)]
    norm_num
  unfold givens_rotation
  rw [if_pos hab, sdiv_of_ne _ (by norm_num : (4 : ℝ) ≠ 0)]
  simp only [Option.some_bind]
  rw [hs, sdiv_of_ne _ (by norm_num : (5 / 4 : ℝ) ≠ 0)]
  simp only [Option.some_bind]
  norm_num

theorem four_not_skipped : ¬ |(4 : ℝ)| ≤ numeric_limits_min := by
  rw [abs_of_pos (by norm_num : (0 : ℝ) < 4), not_le]
  have := numeric_limits_min_lt_one (α := ℝ)
  linarith

theorem make_identity_2 : (make_identity 2 : List ℝ) = [1, 0, 0, 1] := by
  simp [make_identity, List.range, List.range.loop]

/-- The one rotation of `qr_impl` on this input, at column `0` and row `1`. -/
theorem qr_impl_step_3405 :
    qr_impl_step Real.sqrt numeric_limits_min 2 2 0 1 ([1, 0, 0, 1], [3, 4, 0, 5]) =
      some ([3 / 5, -4 / 5, 4 / 5, 3 / 5], [5, 0, 4, 3]) := by
  unfold qr_impl_step
  simp only [List.getElem?_cons_succ, List.getElem?_cons_zero, Option.some_bind, Nat.zero_mul,
    Nat.zero_add, Nat.sub_self, Nat.add_zero, Nat.reduceMul, Nat.reduceAdd, Nat.reduceSub]
  rw [if_neg four_not_skipped, givens_rotation_3_4]
  simp only [Option.some_bind, forUp, update_pair, write, List.getElem?_cons_succ,
    List.getElem?_cons_zero, Option.some_bind, Nat.zero_mul,
    Nat.zero_add, Nat.sub_self, Nat.add_zero, Nat.reduceMul, Nat.reduceAdd, Nat.reduceSub,
    Nat.one_mul, List.length_cons, List.length_nil, List.set_cons_zero, List.set_cons_succ,
    Nat.reduceLT, if_true, Nat.lt_add_one, Nat.zero_lt_succ]
  norm_num

/-- The one rotation of `qr_impl2` on the transposed input, at column `0` and row `1`. -/
theorem qr_impl2_step_3405 :
    qr_impl2_step Real.sqrt numeric_limits_min 2 2 0 1 ([1, 0, 0, 1], [3, 0, 4, 5]) =
      some ([3 / 5, 4 / 5, -4 / 5, 3 / 5], [5, 4, 0, 3]) := by
  unfold qr_impl2_step
  simp only [List.getElem?_cons_succ, List.getElem?_cons_zero, Option.some_bind, Nat.zero_mul,
    Nat.zero_add, Nat.sub_self, Nat.add_zero, Nat.reduceMul, Nat.reduceAdd, Nat.reduceSub,
    Nat.one_mul]
  rw [if_neg four_not_skipped, givens_rotation_3_4]
  simp only [Option.some_bind, forUp, update_pair, write, List.getElem?_cons_succ,
    List.getElem?_cons_zero, Option.some_bind, Nat.zero_mul,
    Nat.zero_add, Nat.sub_self, Nat.add_zero, Nat.reduceMul, Nat.reduceAdd, Nat.reduceSub,
    Nat.one_mul, List.length_cons, List.length_nil, List.set_cons_zero, List.set_cons_succ,
    Nat.reduceLT, if_true, Nat.lt_add_one, Nat.zero_lt_succ]
  norm_num

/-- Value of the `baseline` facade on `X = [3, 4, 0, 5]`. -/
theorem qr_decomposition_baseline_3405 :
    qr_decomposition Real.sqrt numeric_limits_min QRImpl.baseline [3, 4, 0, 5] 2 2 default_tol =
      some ⟨[3 / 5, 4 / 5, -4 / 5, 3 / 5], [0, 0, 0, 0]⟩ := by
  have hp : pred_size_t 2 = 1 := by simp [pred_size_t]
  unfold qr_decomposition qr_impl
  rw [hp]
  simp only [make_identity_2, forUp, forDown, Option.some_bind, Nat.zero_lt_one, if_true,
    Nat.lt_irrefl, if_false, qr_impl_step_3405, Nat.zero_add]
  simp [transpose_square, forUp, forRange, swap_at, write, compact_R, resize]

/-- Value of the `transpose` facade on `X = [3, 4, 0, 5]`. -/
theorem qr_decomposition_transpose_3405 :
    qr_decomposition Real.sqrt numeric_limits_min QRImpl.transpose [3, 4, 0, 5] 2 2 default_tol =
      some ⟨[3 / 5, -4 / 5, 4 / 5, 3 / 5], [5, 4, 0, 3]⟩ := by
  have hp : pred_size_t 2 = 1 := by simp [pred_size_t]
  have hin : transpose_input ([3, 4, 0, 5] : List ℝ) (List.replicate 4 0) 2 2 =
      some [3, 0, 4, 5] := by
    simp [transpose_input, forUp, write]
  have h2 : (0 : ℝ) < default_tol := default_tol_pos
  have h3 := default_tol_lt_one (α := ℝ)
  have hc : cleanup_R (default_tol : ℝ) [5, 4, 0, 3] = [5, 4, 0, 3] := by
    have e5 : ¬ |(5 : ℝ)| < default_tol := by
      rw [abs_of_pos (by norm_num : (0 : ℝ) < 5)]; linarith
    have e4 : ¬ |(4 : ℝ)| < default_tol := by
      rw [abs_of_pos (by norm_num : (0 : ℝ) < 4)]; linarith
    have e3 : ¬ |(3 : ℝ)| < default_tol := by
      rw [abs_of_pos (by norm_num : (0 : ℝ) < 3)]; linarith
    simp only [cleanup_R, List.map_cons, List.map_nil, if_neg e5, if_neg e4, if_neg e3]
    simp
  unfold qr_decomposition qr_impl2
  rw [hp]
  simp only [make_identity_2, List.length_cons, List.length_nil, Nat.zero_add, Nat.reduceAdd, hin,
    forUp, forDown, Option.some_bind, Nat.zero_lt_one, if_true,
    Nat.lt_irrefl, if_false, qr_impl2_step_3405, hc]
  simp [transpose_square, forUp, forRange, swap_at, write, compact_R, resize]

/-! ## Further facts on the facade and its helpers -/

/-- Two vectors of length `p * p` that agree at every slot `i * p + j`, `i, j < p`, are equal. -/
theorem eq_of_square_getD [Zero α] (p : Nat) (X Y : List α) (hX : X.length = p * p)
    (hY : Y.length = p * p)
    (h : ∀ i j, i < p → j < p → X.getD (i * p + j) 0 = Y.getD (i * p + j) 0) : X = Y := by
  apply List.ext_getElem (by rw [hX, hY])
  intro t h1 h2
  have ht : t < p * p := by rw [← hX]; exact h1
  have hp : 0 < p := by
    rcases Nat.eq_zero_or_pos p with h0 | h0
    · subst h0; simp at ht
    · exact h0
  have hdm : t / p * p + t % p = t := Nat.div_add_mod' t p
  have := h (t / p) (t % p) (Nat.div_lt_of_lt_mul ht) (Nat.mod_lt _ hp)
  rw [hdm, List.getD_eq_getElem?_getD, List.getD_eq_getElem?_getD,
    List.getElem?_eq_getElem h1, List.getElem?_eq_getElem h2] at this
  simpa using this

theorem forUp_id {σ : Type} (n : Nat) (s : σ) : forUp (fun _ st => some st) n s = some s := by
  induction n with
  | zero => rfl
  | succ m ih => simp [forUp, ih]

/-- With `p = 0` no loop of the facade runs a body, and in the embedding both variants return
empty `Q` and `R`. Sizes are unbounded naturals here: the allocation of the `n * n` identity,
which the source makes first and which cannot succeed for a huge `n`, is not modelled, so
this is used at small `n` only. -/
theorem qr_decomposition_p_zero (impl : QRImpl) (X : List ℝ) (n : Nat) (tol : ℝ) :
    qr_decomposition Real.sqrt numeric_limits_min impl X n 0 tol = some ⟨[], []⟩ := by
  obtain ⟨Qt, hQt, _, _⟩ := transpose_square_spec n (make_identity n : List ℝ)
    (make_identity_spec n).1
  have hres : ∀ L : List ℝ, resize L 0 = [] := by
    intro L; simp [resize]
  cases impl with
  | baseline =>
    unfold qr_decomposition qr_impl
    simp only [forUp, Option.some_bind, if_true, hQt, compact_R, Nat.mul_zero, hres]
  | transpose =>
    have hin : ∀ R : List ℝ, transpose_input X R n 0 = some R := by
      intro R
      unfold transpose_input
      simp only [forUp]
      exact forUp_id n R
    unfold qr_decomposition qr_impl2
    simp only [hin, forUp, Option.some_bind, if_true, hQt, compact_R, Nat.mul_zero, hres]

/-! ## Orthogonality in both orientations -/

/-- The converse of `ColOrtho_colMajor_rowMajor`. -/
theorem ColOrtho_rowMajor_colMajor [LinearOrderedField α] (n : Nat) (Q : List α)
    (h : ColOrtho (rowMajor n) n Q) : ColOrtho (colMajor n) n Q := by
  let M : Matrix (Fin n) (Fin n) α := fun a b => Q.getD (a * n + b) 0
  have h1 : M.transpose * M = 1 := by
    ext k l
    rw [Matrix.mul_apply, Matrix.one_apply]
    have := h k l k.isLt l.isLt
    rw [Finset.sum_range] at this
    simp only [rowMajor] at this
    simp only [Matrix.transpose_apply, M]
    rw [this]
    simp [Fin.ext_iff]
  have h2 : M * M.transpose = 1 := Matrix.mul_eq_one_comm.mp h1
  intro k l hk hl
  have := congrFun (congrFun h2 ⟨k, hk⟩) ⟨l, hl⟩
  rw [Matrix.mul_apply, Matrix.one_apply] at this
  simp only [Matrix.transpose_apply, M] at this
  rw [Finset.sum_range]
  simp only [colMajor]
  rw [this]
  simp [Fin.ext_iff]

/-! ## Zeros below the diagonal -/

/-- A rotation of rows `i - 1`, `i` that leaves entry `(i, j)` zero keeps the zeros that the
sweep has already produced. -/
theorem RowRot_SubdiagZero (pos : Nat → Nat → Nat) (n p j i : Nat) (hj : j < p) (hji : j < i)
    (hin : i < n) (c s : ℝ) (R R' : List ℝ) (hrot : RowRot pos n p c s i R R')
    (hnew : -s * R.getD (pos (i - 1) j) 0 + c * R.getD (pos i j) 0 = 0)
    (hZ : SubdiagZero pos n j i R) : SubdiagZero pos n j (i - 1) R' := by
  obtain ⟨hcols, hcol⟩ := hZ
  refine ⟨fun k r hk hkr hr => ?_, fun r hir hr => ?_⟩
  · rw [hrot.2 r k hr (by omega), hcols k (i - 1) hk (by omega) (by omega),
      hcols k i hk (by omega) hin]
    by_cases h1 : r = i - 1
    · rw [if_pos h1]; ring
    · rw [if_neg h1]
      by_cases h2 : r = i
      · rw [if_pos h2]; ring
      · rw [if_neg h2]; exact hcols k r hk hkr hr
  · rw [hrot.2 r j hr hj, if_neg (by omega)]
    by_cases h2 : r = i
    · rw [if_pos h2]; exact hnew
    · rw [if_neg h2]; exact hcol r (by omega) hr

/-- With the exact zero test (`tiny = 0`) a step of `qr_impl` keeps `SubdiagZero`. -/
theorem qr_impl_step_SubdiagZero (n p j i : Nat) (hj : j < p) (hji : j < i) (hin : i < n)
    (Q R : List ℝ) (hQ : Q.length = n * n) (hR : R.length = n * p)
    (hZ : SubdiagZero (colMajor n) n j i R) :
    ∃ Q' R', qr_impl_step Real.sqrt 0 n p j i (Q, R) = some (Q', R') ∧
      Q'.length = n * n ∧ R'.length = n * p ∧ SubdiagZero (colMajor n) n j (i - 1) R' := by
  obtain ⟨Q', R', c, s, hs, _, hrQ, hrR, hd⟩ :=
    qr_impl_step_spec 0 (le_refl 0) n p j i (by omega) hin hj Q R hQ hR
  refine ⟨Q', R', hs, by rw [hrQ.1, hQ], by rw [hrR.1, hR],
    RowRot_SubdiagZero (colMajor n) n p j i hj hji hin c s R R' hrR ?_ hZ⟩
  rcases hd with ⟨hle, hc, hs0⟩ | ⟨_, hann, _⟩
  · rw [hc, hs0, abs_nonpos_iff.mp hle]; ring
  · exact hann

/-- With the exact zero test (`tiny = 0`) a step of `qr_impl2` keeps `SubdiagZero`. -/
theorem qr_impl2_step_SubdiagZero (n p j i : Nat) (hj : j < p) (hji : j < i) (hin : i < n)
    (Q R : List ℝ) (hQ : Q.length = n * n) (hR : R.length = n * p)
    (hZ : SubdiagZero (rowMajor p) n j i R) :
    ∃ Q' R', qr_impl2_step Real.sqrt 0 n p j i (Q, R) = some (Q', R') ∧
      Q'.length = n * n ∧ R'.length = n * p ∧ SubdiagZero (rowMajor p) n j (i - 1) R' := by
  obtain ⟨Q', R', c, s, hs, _, hrQ, hrR, hd⟩ :=
    qr_impl2_step_spec 0 (le_refl 0) n p j i (by omega) hin hj Q R hQ hR
  refine ⟨Q', R', hs, by rw [hrQ.1, hQ], by rw [hrR.1, hR],
    RowRot_SubdiagZero (rowMajor p) n p j i hj hji hin c s R R' hrR ?_ hZ⟩
  rcases hd with ⟨hle, hc, hs0⟩ | ⟨_, hann, _⟩
  · rw [hc, hs0, abs_nonpos_iff.mp hle]; ring
  · exact hann

/-- The first `m` column iterations of a sweep whose steps keep `SubdiagZero` leave zeros
below the diagonal in the columns `c < m`. -/
theorem sweep_prefix_SubdiagZero (step : Nat → Nat → List ℝ × List ℝ → Option (List ℝ × List ℝ))
    (pos : Nat → Nat → Nat) (n p m : Nat) (hn : 0 < n) (hpn : p ≤ n) (hm : m ≤ p)
    (hstep : ∀ j i Q R, j < p → j < i → i < n → Q.length = n * n → R.length = n * p →
      SubdiagZero pos n j i R → ∃ Q' R', step j i (Q, R) = some (Q', R') ∧
        Q'.length = n * n ∧ R'.length = n * p ∧ SubdiagZero pos n j (i - 1) R')
    (Q R : List ℝ) (hQ : Q.length = n * n) (hR : R.length = n * p) :
    ∃ st, forUp (fun j st => forDown (step j) j (pred_size_t n) st) m (Q, R) = some st ∧
      st.1.length = n * n ∧ st.2.length = n * p ∧
      ∀ c r, c < m → c < r → r < n → st.2.getD (pos r c) 0 = 0 := by
  obtain ⟨st, hst, hl1, hl2, hZ⟩ := sweep_inv step
    (fun j i st => st.1.length = n * n ∧ st.2.length = n * p ∧ SubdiagZero pos n j i st.2)
    n m hn (by omega) (Q, R)
    ⟨hQ, hR, fun c r hc _ _ => absurd hc (Nat.not_lt_zero c), fun r h1 h2 => by omega⟩
    (fun j i st hj hji hin ⟨h1, h2, h3⟩ => by
      obtain ⟨Q', R', hs, hl1, hl2, hZ⟩ := hstep j i st.1 st.2 (by omega) hji hin h1 h2 h3
      exact ⟨(Q', R'), hs, hl1, hl2, hZ⟩)
    (fun j st hj ⟨h1, h2, hcols, hcol⟩ => ⟨h1, h2, fun c r hc hcr hr => by
        by_cases hcj : c = j
        · subst hcj; exact hcol r hcr hr
        · exact hcols c r (by omega) hcr hr,
      fun r h3 h4 => by omega⟩)
  exact ⟨st, hst, hl1, hl2, hZ.1⟩

theorem cleanup_R_getD (tol : ℝ) (R : List ℝ) (t : Nat) :
    (cleanup_R tol R).getD t 0 = if |R.getD t 0| < tol then 0 else R.getD t 0 := by
  unfold cleanup_R
  have := List.getD_map R (0 : ℝ) (n := t) (fun val : ℝ => if |val| < tol then 0 else val)
  simp only [ite_self] at this
  exact this

theorem cleanup_R_getD_zero (tol : ℝ) (R : List ℝ) (t : Nat) (h : R.getD t 0 = 0) :
    (cleanup_R tol R).getD t 0 = 0 := by
  rw [cleanup_R_getD, h]
  simp

/-! ## The two sweeps in lockstep -/

/-- Relational rule for two `forUp` loops that run in lockstep. -/
theorem forUp_rel {σ τ : Type} (body1 : Nat → σ → Option σ) (body2 : Nat → τ → Option τ)
    (Rel : σ → τ → Prop) (n : Nat) (s0 : σ) (t0 : τ) (h0 : Rel s0 t0)
    (hstep : ∀ k s t, k < n → Rel s t →
      ∃ s' t', body1 k s = some s' ∧ body2 k t = some t' ∧ Rel s' t') :
    ∃ s' t', forUp body1 n s0 = some s' ∧ forUp body2 n t0 = some t' ∧ Rel s' t' := by
  induction n with
  | zero => exact ⟨s0, t0, rfl, rfl, h0⟩
  | succ m ih =>
    obtain ⟨s1, t1, hs1, ht1, hR1⟩ := ih (fun k s t hk hR => hstep k s t (Nat.lt_succ_of_lt hk) hR)
    obtain ⟨s2, t2, hs2, ht2, hR2⟩ := hstep m s1 t1 (Nat.lt_succ_self m) hR1
    exact ⟨s2, t2, by simp [forUp, hs1, hs2], by simp [forUp, ht1, ht2], hR2⟩

/-- Relational rule for two `forDown` loops that run in lockstep. -/
theorem forDown_rel {σ τ : Type} (body1 : Nat → σ → Option σ) (body2 : Nat → τ → Option τ)
    (Rel : σ → τ → Prop) (j i0 : Nat) (s0 : σ) (t0 : τ) (h0 : Rel s0 t0)
    (hstep : ∀ i s t, j < i → i ≤ i0 → Rel s t →
      ∃ s' t', body1 i s = some s' ∧ body2 i t = some t' ∧ Rel s' t') :
    ∃ s' t', forDown body1 j i0 s0 = some s' ∧ forDown body2 j i0 t0 = some t' ∧ Rel s' t' := by
  induction i0 generalizing s0 t0 with
  | zero => exact ⟨s0, t0, rfl, rfl, h0⟩
  | succ m ih =>
    by_cases hj : j < m + 1
    · obtain ⟨s1, t1, hs1, ht1, hR1⟩ := hstep (m + 1) s0 t0 hj (le_refl _) h0
      obtain ⟨s2, t2, hs2, ht2, hR2⟩ := ih s1 t1 hR1
        (fun i s t hji him hR => hstep i s t hji (by omega) hR)
      exact ⟨s2, t2, by simp [forDown, hj, hs1, hs2], by simp [forDown, hj, ht1, ht2], hR2⟩
    · exact ⟨s0, t0, by simp [forDown, hj], by simp [forDown, hj], h0⟩

/-- One step of `qr_impl`, with the coefficients it uses: `(1, 0)` on a skipped entry, the
value of `givens_rotation` otherwise. -/
theorem qr_impl_step_coeffs (tiny : ℝ) (htiny : 0 ≤ tiny) (n p j i : Nat) (hi : 0 < i)
    (hin : i < n) (hj : j < p) (Q R : List ℝ) (hQ : Q.length = n * n) (hR : R.length = n * p) :
    ∃ Q' R' c s, qr_impl_step Real.sqrt tiny n p j i (Q, R) = some (Q', R') ∧
      RowRot (colMajor n) n n c s i Q Q' ∧ RowRot (colMajor n) n p c s i R R' ∧
      ((|R.getD (colMajor n i j) 0| ≤ tiny ∧ c = 1 ∧ s = 0) ∨
        (tiny < |R.getD (colMajor n i j) 0| ∧
          givens_rotation Real.sqrt (R.getD (colMajor n (i - 1) j) 0)
            (R.getD (colMajor n i j) 0) = some (c, s))) := by
  have hlen : R.length = p * n := by rw [hR, Nat.mul_comm]
  have hb : j * n + i < R.length := by rw [hlen]; exact idx_lt hin hj
  have ha : j * n + (i - 1) < R.length := by rw [hlen]; exact idx_lt (by omega) hj
  unfold qr_impl_step
  simp only [colMajor]
  rw [getElem?_eq_some_getD hb, getElem?_eq_some_getD ha]
  simp only [Option.some_bind]
  by_cases hskip : |R.getD (j * n + i) 0| ≤ tiny
  · exact ⟨Q, R, 1, 0, by rw [if_pos hskip], RowRot_refl _ _ _ _ _, RowRot_refl _ _ _ _ _,
      Or.inl ⟨hskip, rfl, rfl⟩⟩
  · have hlt : tiny < |R.getD (j * n + i) 0| := not_le.mp hskip
    have hb0 : R.getD (j * n + i) 0 ≠ 0 := by
      intro e
      rw [e, abs_zero] at hlt
      exact absurd hlt (not_lt.mpr htiny)
    obtain ⟨c, s, hg, _, _, _⟩ :=
      givens_rotation_real (R.getD (j * n + (i - 1)) 0) (R.getD (j * n + i) 0) (Or.inr hb0)
    obtain ⟨R', hR', hrot⟩ := qr_impl_R_loop c s n p i hi hin R hR
    obtain ⟨Q', hQ', hrotQ⟩ := qr_impl_Q_loop c s n i hi hin Q hQ
    refine ⟨Q', R', c, s, ?_, hrotQ, hrot, Or.inr ⟨hlt, hg⟩⟩
    rw [if_neg hskip, hg]
    simp only [Option.some_bind]
    rw [hR']
    simp only [Option.some_bind]
    rw [hQ']
    simp only [Option.some_bind]

/-- One step of `qr_impl2`, with the coefficients it uses. -/
theorem qr_impl2_step_coeffs (tiny : ℝ) (htiny : 0 ≤ tiny) (n p j i : Nat) (hi : 0 < i)
    (hin : i < n) (hj : j < p) (Q R : List ℝ) (hQ : Q.length = n * n) (hR : R.length = n * p) :
    ∃ Q' R' c s, qr_impl2_step Real.sqrt tiny n p j i (Q, R) = some (Q', R') ∧
      RowRot (rowMajor n) n n c s i Q Q' ∧ RowRot (rowMajor p) n p c s i R R' ∧
      ((|R.getD (rowMajor p i j) 0| ≤ tiny ∧ c = 1 ∧ s = 0) ∨
        (tiny < |R.getD (rowMajor p i j) 0| ∧
          givens_rotation Real.sqrt (R.getD (rowMajor p (i - 1) j) 0)
            (R.getD (rowMajor p i j) 0) = some (c, s))) := by
  have hb : i * p + j < R.length := by rw [hR]; exact idx_lt hj hin
  have ha : (i - 1) * p + j < R.length := by rw [hR]; exact idx_lt hj (by omega)
  unfold qr_impl2_step
  simp only [rowMajor]
  rw [getElem?_eq_some_getD hb, getElem?_eq_some_getD ha]
  simp only [Option.some_bind]
  by_cases hskip : |R.getD (i * p + j) 0| ≤ tiny
  · exact ⟨Q, R, 1, 0, by rw [if_pos hskip], RowRot_refl _ _ _ _ _, RowRot_refl _ _ _ _ _,
      Or.inl ⟨hskip, rfl, rfl⟩⟩
  · have hlt : tiny < |R.getD (i * p + j) 0| := not_le.mp hskip
    have hb0 : R.getD (i * p + j) 0 ≠ 0 := by
      intro e
      rw [e, abs_zero] at hlt
      exact absurd hlt (not_lt.mpr htiny)
    obtain ⟨c, s, hg, _, _, _⟩ :=
      givens_rotation_real (R.getD ((i - 1) * p + j) 0) (R.getD (i * p + j) 0) (Or.inr hb0)
    obtain ⟨R', hR', hrot⟩ := qr_impl2_R_loop c s n p i hi hin R hR
    obtain ⟨Q', hQ', hrotQ⟩ := qr_impl2_Q_loop c s n i hi hin Q hQ
    refine ⟨Q', R', c, s, ?_, hrotQ, hrot, Or.inr ⟨hlt, hg⟩⟩
    rw [if_neg hskip, hg]
    simp only [Option.some_bind]
    rw [hR']
    simp only [Option.some_bind]
    rw [hQ']
    simp only [Option.some_bind]

/-- Steps of the two sweeps at the same `(j, i)` on related states return related states. -/
theorem steps_LayoutRel (tiny : ℝ) (htiny : 0 ≤ tiny) (n p j i : Nat) (hi : 0 < i)
    (hin : i < n) (hj : j < p) (st1 st2 : List ℝ × List ℝ) (hrel : LayoutRel n p st1 st2) :
    ∃ st1' st2', qr_impl_step Real.sqrt tiny n p j i st1 = some st1' ∧
      qr_impl2_step Real.sqrt tiny n p j i st2 = some st2' ∧ LayoutRel n p st1' st2' := by
  obtain ⟨hQ1, hR1, hQ2, hR2, hR, hQ⟩ := hrel
  obtain ⟨Q1', R1', c, s, hs1, hrQ1, hrR1, hd1⟩ :=
    qr_impl_step_coeffs tiny htiny n p j i hi hin hj st1.1 st1.2 hQ1 hR1
  obtain ⟨Q2', R2', c', s', hs2, hrQ2, hrR2, hd2⟩ :=
    qr_impl2_step_coeffs tiny htiny n p j i hi hin hj st2.1 st2.2 hQ2 hR2
  have hb : st2.2.getD (rowMajor p i j) 0 = st1.2.getD (colMajor n i j) 0 := hR i j hin hj
  have ha : st2.2.getD (rowMajor p (i - 1) j) 0 = st1.2.getD (colMajor n (i - 1) j) 0 :=
    hR (i - 1) j (by omega) hj
  rw [hb, ha] at hd2
  have hcs : c' = c ∧ s' = s := by
    rcases hd1 with ⟨h1, hc, hs⟩ | ⟨h1, hg1⟩
    · rcases hd2 with ⟨_, hc', hs'⟩ | ⟨h2, _⟩
      · exact ⟨by rw [hc, hc'], by rw [hs, hs']⟩
      · exact absurd h1 (not_le.mpr h2)
    · rcases hd2 with ⟨h2, _, _⟩ | ⟨_, hg2⟩
      · exact absurd h2 (not_le.mpr h1)
      · rw [hg1] at hg2
        have := Option.some.inj hg2
        exact ⟨(congrArg Prod.fst this).symm, (congrArg Prod.snd this).symm⟩
  obtain ⟨hc, hs⟩ := hcs
  subst hc; subst hs
  refine ⟨(Q1', R1'), (Q2', R2'), hs1, hs2, by rw [hrQ1.1, hQ1], by rw [hrR1.1, hR1],
    by rw [hrQ2.1, hQ2], by rw [hrR2.1, hR2], fun r k hr hk => ?_, fun r k hr hk => ?_⟩
  · have e2 := hrR2.2 r k hr hk
    have e1 := hrR1.2 r k hr hk
    simp only [rowMajor] at e2
    simp only [colMajor] at e1
    show R2'.getD (r * p + k) 0 = R1'.getD (k * n + r) 0
    rw [e2, e1, hR (i - 1) k (by omega) hk, hR i k hin hk, hR r k hr hk]
  · have e2 := hrQ2.2 r k hr hk
    have e1 := hrQ1.2 r k hr hk
    simp only [rowMajor] at e2
    simp only [colMajor] at e1
    show Q2'.getD (r * n + k) 0 = Q1'.getD (k * n + r) 0
    rw [e2, e1, hQ (i - 1) k (by omega) hk, hQ i k hin hk, hQ r k hr hk]

/-! ## The working buffers on the matrix with columns `(3, 4)` and `(0, 5)` -/

theorem cleanup_R_5043 : cleanup_R (default_tol : ℝ) [5, 0, 4, 3] = [5, 0, 4, 3] := by
  have h3 := default_tol_lt_one (α := ℝ)
  have e5 : ¬ |(5 : ℝ)| < default_tol := by
    rw [abs_of_pos (by norm_num : (0 : ℝ) < 5)]; linarith
  have e4 : ¬ |(4 : ℝ)| < default_tol := by
    rw [abs_of_pos (by norm_num : (0 : ℝ) < 4)]; linarith
  have e3 : ¬ |(3 : ℝ)| < default_tol := by
    rw [abs_of_pos (by norm_num : (0 : ℝ) < 3)]; linarith
  simp only [cleanup_R, List.map_cons, List.map_nil, if_neg e5, if_neg e4, if_neg e3]
  simp

theorem cleanup_R_5403 : cleanup_R (default_tol : ℝ) [5, 4, 0, 3] = [5, 4, 0, 3] := by
  have h3 := default_tol_lt_one (α := ℝ)
  have e5 : ¬ |(5 : ℝ)| < default_tol := by
    rw [abs_of_pos (by norm_num : (0 : ℝ) < 5)]; linarith
  have e4 : ¬ |(4 : ℝ)| < default_tol := by
    rw [abs_of_pos (by norm_num : (0 : ℝ) < 4)]; linarith
  have e3 : ¬ |(3 : ℝ)| < default_tol := by
    rw [abs_of_pos (by norm_num : (0 : ℝ) < 3)]; linarith
  simp only [cleanup_R, List.map_cons, List.map_nil, if_neg e5, if_neg e4, if_neg e3]
  simp

/-- The working buffers that the sweep `qr_impl` computes from `X = [3, 4, 0, 5]`. -/
theorem qr_impl_3405 :
    qr_impl Real.sqrt numeric_limits_min true (make_identity 2) [3, 4, 0, 5] 2 2 default_tol =
      some ([3 / 5, -4 / 5, 4 / 5, 3 / 5], [5, 0, 4, 3]) := by
  have hp : pred_size_t 2 = 1 := by simp [pred_size_t]
  unfold qr_impl
  rw [hp]
  simp only [make_identity_2, forUp, forDown, Option.some_bind, Nat.zero_lt_one, if_true,
    Nat.lt_irrefl, if_false, qr_impl_step_3405, Nat.zero_add, cleanup_R_5043]

/-- The working buffers that the sweep `qr_impl2` computes from the transposed input. -/
theorem qr_impl2_3405 :
    qr_impl2 Real.sqrt numeric_limits_min true (make_identity 2) [3, 0, 4, 5] 2 2 default_tol =
      some ([3 / 5, 4 / 5, -4 / 5, 3 / 5], [5, 4, 0, 3]) := by
  have hp : pred_size_t 2 = 1 := by simp [pred_size_t]
  unfold qr_impl2
  rw [hp]
  simp only [make_identity_2, forUp, forDown, Option.some_bind, Nat.zero_lt_one, if_true,
    Nat.lt_irrefl, if_false, qr_impl2_step_3405, Nat.zero_add, cleanup_R_5403]

/-! ## The claims -/

/-- C1, on the code: reconstruction fails in both variants. On `X = [3, 4, 0, 5]` (columns
`(3, 4)` and `(0, 5)`), `n = p = 2`, default tolerance, the `baseline` variant returns
`Q = [3/5, 4/5, -4/5, 3/5]` with the all-zero `R`, and the `transpose` variant returns
`Q = [3/5, -4/5, 4/5, 3/5]` with `R = [5, 4, 0, 3]`. The product entry that `validate_qr`
forms for `i = 0`, `j = 0` is `0` resp. `31/5`, while `X[0] = 3`; both gaps exceed the
tolerance `1e4 · epsilon`. -/
theorem qr_decomposition_not_reconstructed :
    qr_decomposition Real.sqrt numeric_limits_min QRImpl.baseline [3, 4, 0, 5] 2 2 default_tol =
      some ⟨[3 / 5, 4 / 5, -4 / 5, 3 / 5], [0, 0, 0, 0]⟩ ∧
    validate_entry ([3 / 5, 4 / 5, -4 / 5, 3 / 5] : List ℝ) [0, 0, 0, 0] 2 2 0 0 = some 0 ∧
    qr_decomposition Real.sqrt numeric_limits_min QRImpl.transpose [3, 4, 0, 5] 2 2 default_tol =
      some ⟨[3 / 5, -4 / 5, 4 / 5, 3 / 5], [5, 4, 0, 3]⟩ ∧
    validate_entry ([3 / 5, -4 / 5, 4 / 5, 3 / 5] : List ℝ) [5, 4, 0, 3] 2 2 0 0 =
      some (31 / 5) ∧
    ([3, 4, 0, 5] : List ℝ)[0 * 2 + 0]? = some 3 ∧
    (10 ^ 4 * numeric_limits_epsilon : ℝ) < |3 - 0| ∧
    (10 ^ 4 * numeric_limits_epsilon : ℝ) < |3 - 31 / 5| := by
  refine ⟨qr_decomposition_baseline_3405, ?_, qr_decomposition_transpose_3405, ?_, by simp,
    ?_, ?_⟩
  · simp [validate_entry, forUp]
  · simp [validate_entry, forUp]
    norm_num
  · unfold numeric_limits_epsilon
    norm_num
  · unfold numeric_limits_epsilon
    norm_num [abs_of_neg]

/-- C2, on the code: the variants disagree. On `X = [3, 4, 0, 5]`, `n = p = 2`, default
tolerance, the `baseline` variant returns `Q = [3/5, 4/5, -4/5, 3/5]`, `R = [0, 0, 0, 0]` and
the `transpose` variant returns `Q = [3/5, -4/5, 4/5, 3/5]`, `R = [5, 4, 0, 3]`: the entries
`Q[1]` differ by `8/5` and the entries `R[0]` by `5`. -/
theorem qr_decomposition_variants_differ :
    qr_decomposition Real.sqrt numeric_limits_min QRImpl.baseline [3, 4, 0, 5] 2 2 default_tol =
      some ⟨[3 / 5, 4 / 5, -4 / 5, 3 / 5], [0, 0, 0, 0]⟩ ∧
    qr_decomposition Real.sqrt numeric_limits_min QRImpl.transpose [3, 4, 0, 5] 2 2 default_tol =
      some ⟨[3 / 5, -4 / 5, 4 / 5, 3 / 5], [5, 4, 0, 3]⟩ ∧
    ([3 / 5, 4 / 5, -4 / 5, 3 / 5] : List ℝ) ≠ [3 / 5, -4 / 5, 4 / 5, 3 / 5] ∧
    ([0, 0, 0, 0] : List ℝ) ≠ [5, 4, 0, 3] := by
  refine ⟨qr_decomposition_baseline_3405, qr_decomposition_transpose_3405, ?_, ?_⟩
  · intro h
    have h1 := (List.cons.inj (List.cons.inj h).2).1
    norm_num at h1
  · intro h
    have h1 := (List.cons.inj h).1
    norm_num at h1

/-- C3, on the code: the returned `R` is not upper-triangular in the layout of `validate_qr`.
On `X = [1, 0, 1, 1]` (the upper-triangular matrix with rows `(1, 1)` and `(0, 1)`), `n = p = 2`,
default tolerance, the `transpose` variant returns `R = [1, 1, 0, 1]`, whose below-diagonal
entry `(1, 0)`, read at `R[0 * 2 + 1]`, is `1`. -/
theorem qr_decomposition_transpose_R_below_diagonal :
    qr_decomposition Real.sqrt numeric_limits_min QRImpl.transpose [1, 0, 1, 1] 2 2 default_tol =
      some ⟨[1, 0, 0, 1], [1, 1, 0, 1]⟩ ∧
    ([1, 1, 0, 1] : List ℝ)[0 * 2 + 1]? = some 1 ∧ (1 : ℝ) ≠ 0 := by
  have h0 : (0 : ℝ) ≤ numeric_limits_min := numeric_limits_min_pos.le
  have h1 : ¬ (1 : ℝ) < default_tol := by
    rw [not_lt]; unfold default_tol; norm_num
  have h2 : (0 : ℝ) < default_tol := default_tol_pos
  refine ⟨?_, by simp, one_ne_zero⟩
  simp [qr_decomposition, qr_impl2, make_identity, forUp, forDown, forRange, pred_size_t,
    qr_impl2_step, transpose_square, transpose_input, swap_at, write, compact_R, resize,
    cleanup_R, h0, h1, h2, List.range, List.range.loop]

/-- C4: for every `X` of length `n·p` with `n ≥ p > 0`, every `tol` and each variant,
`qr_decomposition` returns a `Q` of length `n·p` whose `p` columns (column `k` stored at
`Q[k·n .. k·n+n-1]`) are orthonormal over the reals: the sum over `i < n` of
`Q[k·n+i]·Q[l·n+i]` is `1` when `k = l` and `0` otherwise. -/
theorem qr_decomposition_Q_orthonormal (impl : QRImpl) (X : List ℝ) (n p : Nat) (hp : 0 < p)
    (hpn : p ≤ n) (hX : X.length = n * p) (tol : ℝ) :
    ∃ res, qr_decomposition Real.sqrt numeric_limits_min impl X n p tol = some res ∧
      res.Q.length = n * p ∧
      ∀ k l, k < p → l < p →
        ∑ i in Finset.range n, res.Q.getD (k * n + i) 0 * res.Q.getD (l * n + i) 0 =
          if k = l then 1 else 0 := by
  cases impl with
  | baseline =>
    obtain ⟨Qs, Rs, Qt, _, _, _, hO, _, hQtl, hQtg, hres⟩ :=
      qr_decomposition_baseline_run numeric_limits_min numeric_limits_min_pos.le X n p hp hpn hX tol
    exact ⟨_, hres, resize_length _ _, fun k l hk hl =>
      facade_Q_orthonormal n p hpn Qs Qt hQtl hQtg (ColOrtho_colMajor_rowMajor n Qs hO) k l hk hl⟩
  | transpose =>
    obtain ⟨R0, Qs, Rs, Qt, Rc, _, _, _, _, _, _, hO, _, hQtl, hQtg, _, _, _, hres⟩ :=
      qr_decomposition_transpose_run numeric_limits_min numeric_limits_min_pos.le X n p hp hpn hX
        tol
    exact ⟨_, hres, resize_length _ _, fun k l hk hl =>
      facade_Q_orthonormal n p hpn Qs Qt hQtl hQtg hO k l hk hl⟩

/-- Witness of C4 at the 3×2 matrix with columns `(1, 1, 1)` and `(0, 1, 2)`, `baseline`. -/
theorem qr_decomposition_Q_orthonormal_witness :
    (0 < 2 ∧ 2 ≤ 3 ∧ ([1, 1, 1, 0, 1, 2] : List ℝ).length = 3 * 2) ∧
    ∃ res, qr_decomposition Real.sqrt numeric_limits_min QRImpl.baseline [1, 1, 1, 0, 1, 2] 3 2
        default_tol = some res ∧
      res.Q.length = 3 * 2 ∧
      ∀ k l, k < 2 → l < 2 →
        ∑ i in Finset.range 3, res.Q.getD (k * 3 + i) 0 * res.Q.getD (l * 3 + i) 0 =
          if k = l then 1 else 0 :=
  ⟨⟨by decide, by decide, by simp⟩,
    qr_decomposition_Q_orthonormal QRImpl.baseline [1, 1, 1, 0, 1, 2] 3 2 (by decide) (by decide)
      (by simp) default_tol⟩

/-- C5: for every `X` of length `n·p` with `n ≥ p > 0`, every `tol` and each variant,
`qr_decomposition` returns a result, with `Q` of length exactly `n·p` and `R` of length
exactly `p·p`. -/
theorem qr_decomposition_lengths (impl : QRImpl) (X : List ℝ) (n p : Nat) (hp : 0 < p)
    (hpn : p ≤ n) (hX : X.length = n * p) (tol : ℝ) :
    ∃ res, qr_decomposition Real.sqrt numeric_limits_min impl X n p tol = some res ∧
      res.Q.length = n * p ∧ res.R.length = p * p := by
  cases impl with
  | baseline =>
    obtain ⟨Qs, Rs, Qt, _, _, _, _, _, _, _, hres⟩ :=
      qr_decomposition_baseline_run numeric_limits_min numeric_limits_min_pos.le X n p hp hpn hX tol
    exact ⟨_, hres, resize_length _ _, by simp⟩
  | transpose =>
    obtain ⟨R0, Qs, Rs, Qt, Rc, _, _, _, _, _, _, _, _, _, _, _, _, _, hres⟩ :=
      qr_decomposition_transpose_run numeric_limits_min numeric_limits_min_pos.le X n p hp hpn hX
        tol
    exact ⟨_, hres, resize_length _ _, resize_length _ _⟩

/-- Witness of C5 at the 3×2 matrix with columns `(1, 1, 1)` and `(0, 1, 2)`, `transpose`. -/
theorem qr_decomposition_lengths_witness :
    (0 < 2 ∧ 2 ≤ 3 ∧ ([1, 1, 1, 0, 1, 2] : List ℝ).length = 3 * 2) ∧
    ∃ res, qr_decomposition Real.sqrt numeric_limits_min QRImpl.transpose [1, 1, 1, 0, 1, 2] 3 2
        default_tol = some res ∧ res.Q.length = 3 * 2 ∧ res.R.length = 2 * 2 :=
  ⟨⟨by decide, by decide, by simp⟩,
    qr_decomposition_lengths QRImpl.transpose [1, 1, 1, 0, 1, 2] 3 2 (by decide) (by decide)
      (by simp) default_tol⟩

/-- C6, on the code: Example 1 returns a zero `R`. Called with its defaults (`baseline`,
`tol = 1e-8`) on the 2×2 identity, `qr_decomposition` returns `Q = [1, 0, 0, 1]` and
`R = [0, 0, 0, 0]`, which is not the identity `[1, 0, 0, 1]`. -/
theorem qr_decomposition_example1 :
    qr_decomposition Real.sqrt numeric_limits_min QRImpl.baseline [1, 0, 0, 1] 2 2 default_tol =
      some ⟨[1, 0, 0, 1], [0, 0, 0, 0]⟩ ∧
    qr_decomposition Real.sqrt numeric_limits_min QRImpl.baseline [1, 0, 0, 1] 2 2 default_tol ≠
      some ⟨[1, 0, 0, 1], [1, 0, 0, 1]⟩ := by
  refine ⟨qr_decomposition_baseline_identity2, ?_⟩
  rw [qr_decomposition_baseline_identity2]
  simp

/-- C7, on the code: Example 2 returns a zero `R`. Called with its defaults on the 3×2 matrix
with columns `(1, 1, 1)` and `(0, 1, 2)`, `qr_decomposition` returns `R = [0, 0, 0, 0]`, so the
entry `R[0, 0]`, read at `R[0 * 2 + 0]`, is `0` and not `√3`. -/
theorem qr_decomposition_example2 :
    ∃ Q, qr_decomposition Real.sqrt numeric_limits_min QRImpl.baseline [1, 1, 1, 0, 1, 2] 3 2
        default_tol = some ⟨Q, [0, 0, 0, 0]⟩ ∧
      ([0, 0, 0, 0] : List ℝ)[0 * 2 + 0]? = some 0 ∧ (0 : ℝ) ≠ Real.sqrt 3 := by
  obtain ⟨Qs, Rs, Qt, _, _, _, _, _, _, _, hres⟩ :=
    qr_decomposition_baseline_run numeric_limits_min numeric_limits_min_pos.le
      [1, 1, 1, 0, 1, 2] 3 2 (by decide) (by decide) (by simp) default_tol
  refine ⟨_, hres, by simp, ?_⟩
  have : (0 : ℝ) < Real.sqrt 3 := Real.sqrt_pos.mpr (by norm_num)
  exact this.ne

/-- C8, as stated, fails in two ways. At `x = [-1]`, `n = 1` the claim expects
`Q = x / ‖x‖₂ = [-1]` and `R = [‖x‖₂] = [1]`, but `qr_decomposition(x, 1, 1)` returns
`Q = [1]` (and `R = [0]`): the sign is not normalised. At `x = [1, m]`, `n = 2`, with
`m = numeric_limits::min()`, the entry `m` is skipped and the call returns `Q = [1, 0]`, which
is `x / r` for no real `r`. -/
theorem qr_decomposition_single_column_fails :
    qr_decomposition Real.sqrt numeric_limits_min QRImpl.baseline [-1] 1 1 default_tol =
      some ⟨[1], [0]⟩ ∧
    qr_decomposition Real.sqrt numeric_limits_min QRImpl.baseline [-1] 1 1 default_tol ≠
      some ⟨([-1] : List ℝ).map (fun v => v / euclid_norm Real.sqrt [-1]),
        [euclid_norm Real.sqrt [-1]]⟩ ∧
    qr_decomposition Real.sqrt numeric_limits_min QRImpl.baseline [1, numeric_limits_min] 2 1
      default_tol = some ⟨[1, 0], [0]⟩ ∧
    ∀ r : ℝ, ([1, 0] : List ℝ) ≠ ([1, numeric_limits_min] : List ℝ).map (fun v => v / r) := by
  have hrun : qr_decomposition Real.sqrt numeric_limits_min QRImpl.baseline [-1] 1 1 default_tol =
      some ⟨[1], [0]⟩ := by
    simp [qr_decomposition, qr_impl, make_identity, forUp, forDown, forRange, pred_size_t,
      transpose_square, swap_at, write, compact_R, resize, List.range,
      List.range.loop]
  have hskip : |(numeric_limits_min : ℝ)| ≤ numeric_limits_min := by
    rw [abs_of_pos numeric_limits_min_pos]
  have hp : pred_size_t 2 = 1 := by simp [pred_size_t]
  have hstep : ∀ Q : List ℝ, qr_impl_step Real.sqrt numeric_limits_min 2 1 0 1
      (Q, [1, numeric_limits_min]) = some (Q, [1, numeric_limits_min]) := by
    intro Q
    unfold qr_impl_step
    simp only [List.getElem?_cons_succ, List.getElem?_cons_zero, Option.some_bind, Nat.zero_mul,
      Nat.zero_add]
    rw [if_pos hskip]
  refine ⟨hrun, ?_, ?_, ?_⟩
  · rw [hrun]
    have hnorm : euclid_norm Real.sqrt ([-1] : List ℝ) = 1 := by
      simp [euclid_norm]
    rw [hnorm]
    norm_num
  · unfold qr_decomposition qr_impl
    rw [hp]
    simp only [make_identity_2, forUp, forDown, Option.some_bind, Nat.zero_lt_one, if_true,
      hstep, Nat.zero_add]
    simp [transpose_square, forUp, forRange, swap_at, write, compact_R, resize]
  · intro r h
    simp only [List.map_cons, List.map_nil] at h
    have h1 := (List.cons.inj h).1
    have h2 := (List.cons.inj (List.cons.inj h).2).1
    have hr : r ≠ 0 := by
      intro e
      rw [e, div_zero] at h1
      exact one_ne_zero h1
    have hm : (numeric_limits_min : ℝ) / r ≠ 0 :=
      div_ne_zero numeric_limits_min_pos.ne' hr
    exact hm h2.symm

/-- C8, amended: for every `n ≥ 1`, every `tol` and every non-zero column `x` of length `n`
whose entries below the first are each zero or larger in magnitude than the skip threshold
`numeric_limits::min()`, `qr_decomposition(x, n, 1)` returns a `Q` of length `n` with
`Q = x / r` for a real `r` with `|r| = ‖x‖₂`; the sign of `r` is not normalised. -/
theorem qr_decomposition_single_column (x : List ℝ) (n : Nat) (hn : 0 < n) (hx : x.length = n)
    (hne : ∃ i, i < n ∧ x.getD i 0 ≠ 0)
    (hbig : ∀ i, 0 < i → i < n → x.getD i 0 = 0 ∨ numeric_limits_min < |x.getD i 0|)
    (tol : ℝ) :
    ∃ res r, qr_decomposition Real.sqrt numeric_limits_min QRImpl.baseline x n 1 tol = some res ∧
      res.Q.length = n ∧ |r| = euclid_norm Real.sqrt x ∧
      ∀ i, i < n → res.Q.getD i 0 = x.getD i 0 / r := by
  obtain ⟨Qs, Rw, hsweep, _, _, hrec, hsq⟩ :=
    qr_impl_single_column numeric_limits_min numeric_limits_min_pos.le n hn x hx hbig
  have himpl := qr_impl_of_sweep Real.sqrt numeric_limits_min true (make_identity n) x Qs Rw n 1
    tol hsweep
  obtain ⟨Qs', Rs', Qt, hrun, _, _, _, _, hQtl, hQtg, hres⟩ :=
    qr_decomposition_baseline_run numeric_limits_min numeric_limits_min_pos.le x n 1
      (by decide) (by omega) (by rw [hx, Nat.mul_one]) tol
  rw [himpl] at hrun
  have hQs : Qs = Qs' := congrArg Prod.fst (Option.some.inj hrun)
  subst hQs
  have hr2 : Rw.getD 0 0 ^ 2 = (x.map fun v => v ^ 2).sum := by
    rw [hsq, list_sum_map_eq_sum_range, hx]
  have hr0 : Rw.getD 0 0 ≠ 0 := by
    obtain ⟨i, hi, hxi⟩ := hne
    intro e
    have h1 := hrec i hi
    rw [e, mul_zero] at h1
    exact hxi h1.symm
  refine ⟨_, Rw.getD 0 0, hres, by rw [resize_length, Nat.mul_one], ?_, fun i hi => ?_⟩
  · unfold euclid_norm
    rw [← hr2, Real.sqrt_sq_eq_abs]
  · have hle : n * 1 ≤ Qt.length := by rw [hQtl]; exact Nat.mul_le_mul_left n hn
    have h1 := resize_getD Qt (n * 1) i hle (by omega)
    have h2 := hQtg 0 i hn hi
    simp only [Nat.zero_mul, Nat.zero_add, Nat.add_zero] at h2
    show (resize Qt (n * 1)).getD i 0 = x.getD i 0 / Rw.getD 0 0
    rw [h1, h2, eq_div_iff hr0]
    exact hrec i hi

/-- Witness of C8 (amended) at the column `x = (3, 4)`. -/
theorem qr_decomposition_single_column_witness :
    (0 < 2 ∧ ([3, 4] : List ℝ).length = 2 ∧ (∃ i, i < 2 ∧ ([3, 4] : List ℝ).getD i 0 ≠ 0) ∧
      (∀ i, 0 < i → i < 2 → ([3, 4] : List ℝ).getD i 0 = 0 ∨
        numeric_limits_min < |([3, 4] : List ℝ).getD i 0|)) ∧
    ∃ res r, qr_decomposition Real.sqrt numeric_limits_min QRImpl.baseline [3, 4] 2 1
        default_tol = some res ∧
      res.Q.length = 2 ∧ |r| = euclid_norm Real.sqrt [3, 4] ∧
      ∀ i, i < 2 → res.Q.getD i 0 = ([3, 4] : List ℝ).getD i 0 / r := by
  have h1 : ∃ i, i < 2 ∧ ([3, 4] : List ℝ).getD i 0 ≠ 0 := ⟨0, by decide, by simp⟩
  have h2 : ∀ i, 0 < i → i < 2 → ([3, 4] : List ℝ).getD i 0 = 0 ∨
      numeric_limits_min < |([3, 4] : List ℝ).getD i 0| := by
    intro i hi0 hi2
    have hi : i = 1 := by omega
    subst hi
    right
    have : (numeric_limits_min : ℝ) < 1 := by
      unfold numeric_limits_min
      rw [div_lt_one (by positivity)]
      exact one_lt_pow₀ (by norm_num) (by norm_num)
    simp only [List.getD_cons_succ, List.getD_cons_zero]
    rw [abs_of_pos (by norm_num : (0 : ℝ) < 4)]
    linarith
  exact ⟨⟨by decide, by simp, h1, h2⟩,
    qr_decomposition_single_column [3, 4] 2 (by decide) (by simp) h1 h2 default_tol⟩

/-- C9: for all real `a`, `b` not both zero, `givens_rotation(a, b)` returns `(c, s)` with
`-s·a + c·b = 0` (the rotation annihilates `b`) and `(c·a + s·b)² = a² + b²` (it preserves
the Euclidean norm). -/
theorem givens_rotation_annihilates (a b : ℝ) (h : ¬ (a = 0 ∧ b = 0)) :
    ∃ c s, givens_rotation Real.sqrt a b = some (c, s) ∧
      -s * a + c * b = 0 ∧ (c * a + s * b) ^ 2 = a ^ 2 + b ^ 2 := by
  obtain ⟨c, s, hg, _, h1, h2⟩ := givens_rotation_real a b (by
    by_cases ha : a = 0
    · exact Or.inr (fun hb => h ⟨ha, hb⟩)
    · exact Or.inl ha)
  exact ⟨c, s, hg, h1, h2⟩

/-- Witness of C9 at `a = 3`, `b = 4`. -/
theorem givens_rotation_annihilates_witness :
    ¬ ((3 : ℝ) = 0 ∧ (4 : ℝ) = 0) ∧
    ∃ c s, givens_rotation Real.sqrt (3 : ℝ) 4 = some (c, s) ∧
      -s * 3 + c * 4 = 0 ∧ (c * 3 + s * 4) ^ 2 = (3 : ℝ) ^ 2 + 4 ^ 2 :=
  ⟨by norm_num, givens_rotation_annihilates 3 4 (by norm_num)⟩

/-- C10, as stated, fails at `a = b = 0`: there `givens_rotation` divides `0` by `0` and
returns no coefficient pair at all, so none with `c² + s² = 1`. -/
theorem givens_rotation_zero_zero_no_unit :
    ¬ ∃ c s : ℝ, givens_rotation Real.sqrt (0 : ℝ) 0 = some (c, s) ∧ c ^ 2 + s ^ 2 = 1 := by
  rintro ⟨c, s, h, _⟩
  rw [givens_rotation_zero_zero] at h
  exact Option.noConfusion h

/-- C10, amended: for all real `a`, `b` not both zero, in both branches of
`givens_rotation`, the returned coefficients `(c, s)` satisfy `c² + s² = 1`. -/
theorem givens_rotation_unit (a b : ℝ) (h : ¬ (a = 0 ∧ b = 0)) :
    ∃ c s, givens_rotation Real.sqrt a b = some (c, s) ∧ c ^ 2 + s ^ 2 = 1 := by
  obtain ⟨c, s, hg, h1, _⟩ := givens_rotation_real a b (by
    by_cases ha : a = 0
    · exact Or.inr (fun hb => h ⟨ha, hb⟩)
    · exact Or.inl ha)
  exact ⟨c, s, hg, h1⟩

/-- Witness of C10 (amended) at `a = 1`, `b = 2`, the branch `|b| > |a|`. -/
theorem givens_rotation_unit_witness :
    ¬ ((1 : ℝ) = 0 ∧ (2 : ℝ) = 0) ∧
    ∃ c s, givens_rotation Real.sqrt (1 : ℝ) 2 = some (c, s) ∧ c ^ 2 + s ^ 2 = 1 :=
  ⟨by norm_num, givens_rotation_unit 1 2 (by norm_num)⟩

/-- C11, as stated, fails: there is no dimension check. With `n = 2`, `p = 0` and an `X` of
length `3` the `baseline` call returns a result (empty `Q` and `R`), and so does the
`transpose` call with `n = 0`, `p = 0` on the empty `X`. -/
theorem qr_decomposition_accepts_bad_dimensions :
    qr_decomposition Real.sqrt numeric_limits_min QRImpl.baseline [1, 2, 3] 2 0 default_tol =
      some ⟨[], []⟩ ∧
    qr_decomposition Real.sqrt numeric_limits_min QRImpl.transpose [] 0 0 default_tol =
      some ⟨[], []⟩ :=
  ⟨qr_decomposition_p_zero _ _ _ _, qr_decomposition_p_zero _ _ _ _⟩

/-- C11, amended: `qr_decomposition` performs no dimension validation and has no
`InvalidDimension` outcome. It returns a result whenever `p > 0`, `p ≤ n` (so `n > 0`) and
`length(X) = n·p`; and it returns a result on malformed dimensions as well, for instance
(empty `Q` and `R`) on `n = 2`, `p = 0` with an `X` of length `3`, and on `n = 0`, `p = 0`
with the empty `X`. -/
theorem qr_decomposition_no_validation (impl : QRImpl) (X : List ℝ) (n p : Nat)
    (hp : 0 < p) (hpn : p ≤ n) (hX : X.length = n * p) (tol : ℝ) :
    (∃ res, qr_decomposition Real.sqrt numeric_limits_min impl X n p tol = some res) ∧
    qr_decomposition Real.sqrt numeric_limits_min QRImpl.baseline [1, 2, 3] 2 0 default_tol =
      some ⟨[], []⟩ ∧
    qr_decomposition Real.sqrt numeric_limits_min QRImpl.transpose [] 0 0 default_tol =
      some ⟨[], []⟩ := by
  refine ⟨?_, qr_decomposition_p_zero _ _ _ _, qr_decomposition_p_zero _ _ _ _⟩
  cases impl with
  | baseline =>
    obtain ⟨Qs, Rs, Qt, _, _, _, _, _, _, _, hres⟩ :=
      qr_decomposition_baseline_run numeric_limits_min numeric_limits_min_pos.le X n p hp hpn hX tol
    exact ⟨_, hres⟩
  | transpose =>
    obtain ⟨R0, Qs, Rs, Qt, Rc, _, _, _, _, _, _, _, _, _, _, _, _, _, hres⟩ :=
      qr_decomposition_transpose_run numeric_limits_min numeric_limits_min_pos.le X n p hp hpn hX
        tol
    exact ⟨_, hres⟩

/-- Witness of C11 (amended) at the 2×2 identity, `baseline`. -/
theorem qr_decomposition_no_validation_witness :
    (0 < 2 ∧ 2 ≤ 2 ∧ ([1, 0, 0, 1] : List ℝ).length = 2 * 2) ∧
    ((∃ res, qr_decomposition Real.sqrt numeric_limits_min QRImpl.baseline [1, 0, 0, 1] 2 2
        default_tol = some res) ∧
    qr_decomposition Real.sqrt numeric_limits_min QRImpl.baseline [1, 2, 3] 2 0 default_tol =
      some ⟨[], []⟩ ∧
    qr_decomposition Real.sqrt numeric_limits_min QRImpl.transpose [] 0 0 default_tol =
      some ⟨[], []⟩) :=
  ⟨⟨by decide, by decide, by simp⟩,
    qr_decomposition_no_validation QRImpl.baseline [1, 0, 0, 1] 2 2 (by decide) (by decide)
      (by simp) default_tol⟩

/-- C12: the two sweeps are the same computation up to memory layout. For all `n ≥ 1` and
all `p` (so for all `n, p ≥ 1`), every `tol` and cleanup flag, and all buffers `Q1, Q2` (`n·n`) and `R1, R2` (`n·p`) with
`R2[i·p+k] = R1[k·n+i]` (`i < n`, `k < p`) and `Q2[i·n+k] = Q1[k·n+i]` (`i, k < n`), `qr_impl`
on `(Q1, R1)` and `qr_impl2` on `(Q2, R2)` both return, and the returned buffers satisfy the
same two equations. -/
theorem sweeps_agree_up_to_layout (n p : Nat) (hn : 1 ≤ n) (cleanup : Bool)
    (tol : ℝ) (Q1 R1 Q2 R2 : List ℝ) (hQ1 : Q1.length = n * n) (hR1 : R1.length = n * p)
    (hQ2 : Q2.length = n * n) (hR2 : R2.length = n * p)
    (hR : ∀ i k, i < n → k < p → R2.getD (i * p + k) 0 = R1.getD (k * n + i) 0)
    (hQ : ∀ i k, i < n → k < n → Q2.getD (i * n + k) 0 = Q1.getD (k * n + i) 0) :
    ∃ Q1' R1' Q2' R2',
      qr_impl Real.sqrt numeric_limits_min cleanup Q1 R1 n p tol = some (Q1', R1') ∧
      qr_impl2 Real.sqrt numeric_limits_min cleanup Q2 R2 n p tol = some (Q2', R2') ∧
      (∀ i k, i < n → k < p → R2'.getD (i * p + k) 0 = R1'.getD (k * n + i) 0) ∧
      (∀ i k, i < n → k < n → Q2'.getD (i * n + k) 0 = Q1'.getD (k * n + i) 0) := by
  obtain ⟨st1, st2, h1, h2, hrel⟩ := forUp_rel
    (fun j st => forDown (qr_impl_step Real.sqrt numeric_limits_min n p j) j (pred_size_t n) st)
    (fun j st => forDown (qr_impl2_step Real.sqrt numeric_limits_min n p j) j (pred_size_t n) st)
    (LayoutRel n p) p (Q1, R1) (Q2, R2) ⟨hQ1, hR1, hQ2, hR2, hR, hQ⟩
    (fun j s t hj hrel => forDown_rel _ _ (LayoutRel n p) j (pred_size_t n) s t hrel
      (fun i s' t' hji hin hrel' => by
        rw [pred_size_t_of_pos hn] at hin
        exact steps_LayoutRel numeric_limits_min numeric_limits_min_pos.le n p j i (by omega)
          (by omega) hj s' t' hrel'))
  obtain ⟨_, _, _, _, hR', hQ'⟩ := hrel
  refine ⟨st1.1, if cleanup then cleanup_R tol st1.2 else st1.2, st2.1,
    if cleanup then cleanup_R tol st2.2 else st2.2,
    qr_impl_of_sweep Real.sqrt numeric_limits_min cleanup Q1 R1 st1.1 st1.2 n p tol h1, ?_,
    fun i k hi hk => ?_, hQ'⟩
  · unfold qr_impl2
    rw [h2]
    cases cleanup <;> simp
  · cases cleanup
    · exact hR' i k hi hk
    · simp only [if_true]
      rw [cleanup_R_getD, cleanup_R_getD, hR' i k hi hk]

/-- Witness of C12 at `Q1 = Q2 = identity`, `R1 = [3, 4, 0, 5]` and its transpose
`R2 = [3, 0, 4, 5]`, `n = p = 2`. -/
theorem sweeps_agree_up_to_layout_witness :
    (1 ≤ 2 ∧ ([1, 0, 0, 1] : List ℝ).length = 2 * 2 ∧ ([3, 4, 0, 5] : List ℝ).length = 2 * 2 ∧
      ([1, 0, 0, 1] : List ℝ).length = 2 * 2 ∧ ([3, 0, 4, 5] : List ℝ).length = 2 * 2 ∧
      (∀ i k, i < 2 → k < 2 →
        ([3, 0, 4, 5] : List ℝ).getD (i * 2 + k) 0 = ([3, 4, 0, 5] : List ℝ).getD (k * 2 + i) 0) ∧
      (∀ i k, i < 2 → k < 2 →
        ([1, 0, 0, 1] : List ℝ).getD (i * 2 + k) 0 =
          ([1, 0, 0, 1] : List ℝ).getD (k * 2 + i) 0)) ∧
    ∃ Q1' R1' Q2' R2',
      qr_impl Real.sqrt numeric_limits_min true [1, 0, 0, 1] [3, 4, 0, 5] 2 2 default_tol =
        some (Q1', R1') ∧
      qr_impl2 Real.sqrt numeric_limits_min true [1, 0, 0, 1] [3, 0, 4, 5] 2 2 default_tol =
        some (Q2', R2') ∧
      (∀ i k, i < 2 → k < 2 → R2'.getD (i * 2 + k) 0 = R1'.getD (k * 2 + i) 0) ∧
      (∀ i k, i < 2 → k < 2 → Q2'.getD (i * 2 + k) 0 = Q1'.getD (k * 2 + i) 0) := by
  have hR : ∀ i k, i < 2 → k < 2 →
      ([3, 0, 4, 5] : List ℝ).getD (i * 2 + k) 0 = ([3, 4, 0, 5] : List ℝ).getD (k * 2 + i) 0 := by
    intro i k hi hk
    interval_cases i <;> interval_cases k <;> simp
  have hQ : ∀ i k, i < 2 → k < 2 →
      ([1, 0, 0, 1] : List ℝ).getD (i * 2 + k) 0 = ([1, 0, 0, 1] : List ℝ).getD (k * 2 + i) 0 := by
    intro i k hi hk
    interval_cases i <;> interval_cases k <;> simp
  exact ⟨⟨by decide, by simp, by simp, by simp, by simp, hR, hQ⟩,
    sweeps_agree_up_to_layout 2 2 (by decide) true default_tol [1, 0, 0, 1] [3, 4, 0, 5]
      [1, 0, 0, 1] [3, 0, 4, 5] (by simp) (by simp) (by simp) (by simp) hR hQ⟩

/-- C13: with the skip test read as an exact zero test (`tiny = 0`), on buffers `Q` (`n·n`)
and `R` (`n·p`), `n ≥ p`: a step at `(i, j)` of `qr_impl` (of `qr_impl2` in its layout) keeps
the zeros below the diagonal in the columns `c < j` and in column `j` at the rows `> i`, and
makes entry `(i, j)` zero; so after the first `m` column iterations every entry `(r, c)` with
`c < m` and `r > c` of the working `R` is zero, and the `R` that the sweep returns is
upper-triangular. -/
theorem sweep_zeros_below_diagonal (n p : Nat) (hn : 0 < n) (hpn : p ≤ n) (Q R : List ℝ)
    (hQ : Q.length = n * n) (hR : R.length = n * p) (cleanup : Bool) (tol : ℝ) :
    (∀ j i Q1 R1, j < p → j < i → i < n → Q1.length = n * n → R1.length = n * p →
      SubdiagZero (colMajor n) n j i R1 →
      ∃ Q2 R2, qr_impl_step Real.sqrt 0 n p j i (Q1, R1) = some (Q2, R2) ∧
        SubdiagZero (colMajor n) n j (i - 1) R2) ∧
    (∀ j i Q1 R1, j < p → j < i → i < n → Q1.length = n * n → R1.length = n * p →
      SubdiagZero (rowMajor p) n j i R1 →
      ∃ Q2 R2, qr_impl2_step Real.sqrt 0 n p j i (Q1, R1) = some (Q2, R2) ∧
        SubdiagZero (rowMajor p) n j (i - 1) R2) ∧
    (∀ m, m ≤ p → ∃ st,
      forUp (fun j st => forDown (qr_impl_step Real.sqrt 0 n p j) j (pred_size_t n) st) m
        (Q, R) = some st ∧
      ∀ c r, c < m → c < r → r < n → st.2.getD (c * n + r) 0 = 0) ∧
    (∀ m, m ≤ p → ∃ st,
      forUp (fun j st => forDown (qr_impl2_step Real.sqrt 0 n p j) j (pred_size_t n) st) m
        (Q, R) = some st ∧
      ∀ c r, c < m → c < r → r < n → st.2.getD (r * p + c) 0 = 0) ∧
    (∃ Q' R', qr_impl Real.sqrt 0 cleanup Q R n p tol = some (Q', R') ∧
      ∀ c r, c < p → c < r → r < n → R'.getD (c * n + r) 0 = 0) ∧
    (∃ Q' R', qr_impl2 Real.sqrt 0 cleanup Q R n p tol = some (Q', R') ∧
      ∀ c r, c < p → c < r → r < n → R'.getD (r * p + c) 0 = 0) := by
  have hs1 := fun j i Q1 R1 hj hji hin h1 h2 hZ =>
    qr_impl_step_SubdiagZero n p j i hj hji hin Q1 R1 h1 h2 hZ
  have hs2 := fun j i Q1 R1 hj hji hin h1 h2 hZ =>
    qr_impl2_step_SubdiagZero n p j i hj hji hin Q1 R1 h1 h2 hZ
  refine ⟨?_, ?_, ?_, ?_, ?_, ?_⟩
  · intro j i Q1 R1 hj hji hin h1 h2 hZ
    obtain ⟨Q2, R2, h, _, _, hZ2⟩ := hs1 j i Q1 R1 hj hji hin h1 h2 hZ
    exact ⟨Q2, R2, h, hZ2⟩
  · intro j i Q1 R1 hj hji hin h1 h2 hZ
    obtain ⟨Q2, R2, h, _, _, hZ2⟩ := hs2 j i Q1 R1 hj hji hin h1 h2 hZ
    exact ⟨Q2, R2, h, hZ2⟩
  · intro m hm
    obtain ⟨st, hst, _, _, hZ⟩ := sweep_prefix_SubdiagZero (qr_impl_step Real.sqrt 0 n p)
      (colMajor n) n p m hn hpn hm hs1 Q R hQ hR
    exact ⟨st, hst, hZ⟩
  · intro m hm
    obtain ⟨st, hst, _, _, hZ⟩ := sweep_prefix_SubdiagZero (qr_impl2_step Real.sqrt 0 n p)
      (rowMajor p) n p m hn hpn hm hs2 Q R hQ hR
    exact ⟨st, hst, hZ⟩
  · obtain ⟨st, hst, _, _, hZ⟩ := sweep_prefix_SubdiagZero (qr_impl_step Real.sqrt 0 n p)
      (colMajor n) n p p hn hpn (le_refl p) hs1 Q R hQ hR
    have himpl := qr_impl_of_sweep Real.sqrt 0 cleanup Q R st.1 st.2 n p tol hst
    refine ⟨_, _, himpl, fun c r hc hcr hr => ?_⟩
    cases cleanup
    · exact hZ c r hc hcr hr
    · exact cleanup_R_getD_zero tol st.2 _ (hZ c r hc hcr hr)
  · obtain ⟨st, hst, _, _, hZ⟩ := sweep_prefix_SubdiagZero (qr_impl2_step Real.sqrt 0 n p)
      (rowMajor p) n p p hn hpn (le_refl p) hs2 Q R hQ hR
    refine ⟨st.1, if cleanup then cleanup_R tol st.2 else st.2, ?_, fun c r hc hcr hr => ?_⟩
    · unfold qr_impl2
      rw [hst]
      cases cleanup <;> simp
    · cases cleanup
      · exact hZ c r hc hcr hr
      · exact cleanup_R_getD_zero tol st.2 _ (hZ c r hc hcr hr)

/-- Witness of C13 at the 2×2 matrix with columns `(3, 4)` and `(0, 5)`. -/
theorem sweep_zeros_below_diagonal_witness :
    (0 < 2 ∧ 2 ≤ 2 ∧ ([1, 0, 0, 1] : List ℝ).length = 2 * 2 ∧
      ([3, 4, 0, 5] : List ℝ).length = 2 * 2) ∧
    ((∀ j i Q1 R1, j < 2 → j < i → i < 2 → Q1.length = 2 * 2 → R1.length = 2 * 2 →
      SubdiagZero (colMajor 2) 2 j i R1 →
      ∃ Q2 R2, qr_impl_step Real.sqrt 0 2 2 j i (Q1, R1) = some (Q2, R2) ∧
        SubdiagZero (colMajor 2) 2 j (i - 1) R2) ∧
    (∀ j i Q1 R1, j < 2 → j < i → i < 2 → Q1.length = 2 * 2 → R1.length = 2 * 2 →
      SubdiagZero (rowMajor 2) 2 j i R1 →
      ∃ Q2 R2, qr_impl2_step Real.sqrt 0 2 2 j i (Q1, R1) = some (Q2, R2) ∧
        SubdiagZero (rowMajor 2) 2 j (i - 1) R2) ∧
    (∀ m, m ≤ 2 → ∃ st,
      forUp (fun j st => forDown (qr_impl_step Real.sqrt 0 2 2 j) j (pred_size_t 2) st) m
        ([1, 0, 0, 1], [3, 4, 0, 5]) = some st ∧
      ∀ c r, c < m → c < r → r < 2 → st.2.getD (c * 2 + r) 0 = 0) ∧
    (∀ m, m ≤ 2 → ∃ st,
      forUp (fun j st => forDown (qr_impl2_step Real.sqrt 0 2 2 j) j (pred_size_t 2) st) m
        ([1, 0, 0, 1], [3, 4, 0, 5]) = some st ∧
      ∀ c r, c < m → c < r → r < 2 → st.2.getD (r * 2 + c) 0 = 0) ∧
    (∃ Q' R', qr_impl Real.sqrt 0 true [1, 0, 0, 1] [3, 4, 0, 5] 2 2 default_tol =
        some (Q', R') ∧
      ∀ c r, c < 2 → c < r → r < 2 → R'.getD (c * 2 + r) 0 = 0) ∧
    (∃ Q' R', qr_impl2 Real.sqrt 0 true [1, 0, 0, 1] [3, 4, 0, 5] 2 2 default_tol =
        some (Q', R') ∧
      ∀ c r, c < 2 → c < r → r < 2 → R'.getD (r * 2 + c) 0 = 0)) :=
  ⟨⟨by decide, by decide, by simp, by simp⟩,
    sweep_zeros_below_diagonal 2 2 (by decide) (by decide) [1, 0, 0, 1] [3, 4, 0, 5] (by simp)
      (by simp) true default_tol⟩

/-- C14: orthogonality is an invariant of the accumulator. `make_identity(n)` satisfies
`QᵗQ = identity` (the sum over `i < n` of `Q[k·n+i]·Q[l·n+i]` is `1` if `k = l`, else `0`), and
whenever an `n·n` buffer `Q` satisfies it, one step of `qr_impl` and one step of `qr_impl2`,
at any row `0 < i < n` and column `j < p` and with any `R` of length `n·p`, return a buffer
that satisfies it again. -/
theorem accumulator_stays_orthogonal (n p j i : Nat) (Q R : List ℝ) (hj : j < p) (hi : 0 < i)
    (hin : i < n) (hQ : Q.length = n * n) (hR : R.length = n * p)
    (hO : ∀ k l, k < n → l < n →
      ∑ r in Finset.range n, Q.getD (k * n + r) 0 * Q.getD (l * n + r) 0 =
        if k = l then 1 else 0) :
    (∀ k l, k < n → l < n →
      ∑ r in Finset.range n, (make_identity n : List ℝ).getD (k * n + r) 0 *
        (make_identity n : List ℝ).getD (l * n + r) 0 = if k = l then 1 else 0) ∧
    (∃ Q' R', qr_impl_step Real.sqrt numeric_limits_min n p j i (Q, R) = some (Q', R') ∧
      Q'.length = n * n ∧
      ∀ k l, k < n → l < n →
        ∑ r in Finset.range n, Q'.getD (k * n + r) 0 * Q'.getD (l * n + r) 0 =
          if k = l then 1 else 0) ∧
    (∃ Q' R', qr_impl2_step Real.sqrt numeric_limits_min n p j i (Q, R) = some (Q', R') ∧
      Q'.length = n * n ∧
      ∀ k l, k < n → l < n →
        ∑ r in Finset.range n, Q'.getD (k * n + r) 0 * Q'.getD (l * n + r) 0 =
          if k = l then 1 else 0) := by
  have hO' : ColOrtho (colMajor n) n Q := hO
  refine ⟨make_identity_ColOrtho_colMajor n, ?_, ?_⟩
  · obtain ⟨Q', R', c, s, hs, hcs, hrQ, _, _⟩ :=
      qr_impl_step_spec numeric_limits_min numeric_limits_min_pos.le n p j i hi hin hj Q R hQ hR
    exact ⟨Q', R', hs, by rw [hrQ.1, hQ], RowRot_ColOrtho _ n c s hcs i hi hin Q Q' hrQ hO'⟩
  · obtain ⟨Q', R', c, s, hs, hcs, hrQ, _, _⟩ :=
      qr_impl2_step_spec numeric_limits_min numeric_limits_min_pos.le n p j i hi hin hj Q R hQ hR
    exact ⟨Q', R', hs, by rw [hrQ.1, hQ], ColOrtho_rowMajor_colMajor n Q'
      (RowRot_ColOrtho _ n c s hcs i hi hin Q Q' hrQ (ColOrtho_colMajor_rowMajor n Q hO'))⟩

/-- Witness of C14 at `Q = make_identity(2)`, `R = [3, 4, 0, 5]`, row `1`, column `0`. -/
theorem accumulator_stays_orthogonal_witness :
    ((0 < 2 ∧ 0 < 1 ∧ 1 < 2 ∧ (make_identity 2 : List ℝ).length = 2 * 2 ∧
      ([3, 4, 0, 5] : List ℝ).length = 2 * 2) ∧
      ∀ k l, k < 2 → l < 2 →
        ∑ r in Finset.range 2, (make_identity 2 : List ℝ).getD (k * 2 + r) 0 *
          (make_identity 2 : List ℝ).getD (l * 2 + r) 0 = if k = l then 1 else 0) ∧
    ((∀ k l, k < 2 → l < 2 →
      ∑ r in Finset.range 2, (make_identity 2 : List ℝ).getD (k * 2 + r) 0 *
        (make_identity 2 : List ℝ).getD (l * 2 + r) 0 = if k = l then 1 else 0) ∧
    (∃ Q' R', qr_impl_step Real.sqrt numeric_limits_min 2 2 0 1
        (make_identity 2, [3, 4, 0, 5]) = some (Q', R') ∧
      Q'.length = 2 * 2 ∧
      ∀ k l, k < 2 → l < 2 →
        ∑ r in Finset.range 2, Q'.getD (k * 2 + r) 0 * Q'.getD (l * 2 + r) 0 =
          if k = l then 1 else 0) ∧
    (∃ Q' R', qr_impl2_step Real.sqrt numeric_limits_min 2 2 0 1
        (make_identity 2, [3, 4, 0, 5]) = some (Q', R') ∧
      Q'.length = 2 * 2 ∧
      ∀ k l, k < 2 → l < 2 →
        ∑ r in Finset.range 2, Q'.getD (k * 2 + r) 0 * Q'.getD (l * 2 + r) 0 =
          if k = l then 1 else 0)) :=
  ⟨⟨⟨by decide, by decide, by decide, (make_identity_spec 2).1, by simp⟩,
      make_identity_ColOrtho_colMajor 2⟩,
    accumulator_stays_orthogonal 2 2 0 1 (make_identity 2) [3, 4, 0, 5] (by decide) (by decide)
      (by decide) (make_identity_spec 2).1 (by simp) (make_identity_ColOrtho_colMajor 2)⟩

/-- C15: for every `X` of length `n·p` with `n ≥ p ≥ 1`, `qr_impl` run without cleanup from
`Q = make_identity(n)` and `R = X` returns buffers with
`X[j·n+i] = Σ_{k<n} Q[i·n+k]·R[j·n+k]` for all `i < n`, `j < p`: the stored accumulator is the
transpose of the orthogonal factor. -/
theorem qr_impl_accumulates_transpose (X : List ℝ) (n p : Nat) (hp : 0 < p) (hpn : p ≤ n)
    (hX : X.length = n * p) (tol : ℝ) :
    ∃ Q R, qr_impl Real.sqrt numeric_limits_min false (make_identity n) X n p tol =
        some (Q, R) ∧ Q.length = n * n ∧ R.length = n * p ∧
      ∀ i j, i < n → j < p →
        X.getD (j * n + i) 0 = ∑ k in Finset.range n, Q.getD (i * n + k) 0 * R.getD (j * n + k) 0 := by
  obtain ⟨Qs, Rs, hrun, hQl, hRl, hrec⟩ := qr_impl_sweep_inv numeric_limits_min
    numeric_limits_min_pos.le n p (by omega) hpn
    (fun _ _ Q1 R1 => ∀ i j, i < n → j < p →
      ∑ k in Finset.range n, Q1.getD (colMajor n k i) 0 * R1.getD (colMajor n k j) 0 =
        X.getD (j * n + i) 0)
    (make_identity n) X (make_identity_spec n).1 hX
    (fun i j hi hj => by
      have h : ∀ k, k ∈ Finset.range n →
          (make_identity n : List ℝ).getD (colMajor n k i) 0 * X.getD (colMajor n k j) 0 =
          if k = i then X.getD (j * n + i) 0 else 0 := by
        intro k hk
        have hk' := Finset.mem_range.mp hk
        unfold colMajor
        rw [(make_identity_spec n).2 i k hi hk']
        by_cases h1 : i = k
        · subst h1; simp
        · have h2 : ¬ k = i := fun e => h1 e.symm
          simp [h1, h2]
      rw [Finset.sum_congr rfl h, Finset.sum_ite_eq' (Finset.range n) i]
      simp [hi])
    (fun j i Q1 R1 Q2 R2 c s hj hji hin _ _ hrec hcs hrQ hrR _ a b ha hb => by
      rw [RowRot_inner_two (colMajor n) (colMajor n) n n p c s hcs i (by omega) hin Q1 Q2 R1 R2
        hrQ hrR a b ha hb]
      exact hrec a b ha hb)
    (fun _ _ _ _ h => h)
  have himpl := qr_impl_of_sweep Real.sqrt numeric_limits_min false (make_identity n) X Qs Rs n p
    tol hrun
  refine ⟨Qs, Rs, by simpa using himpl, hQl, hRl, fun i j hi hj => ?_⟩
  rw [← hrec i j hi hj]
  rfl

/-- Witness of C15 at the 3×2 matrix with columns `(1, 1, 1)` and `(0, 1, 2)`. -/
theorem qr_impl_accumulates_transpose_witness :
    (0 < 2 ∧ 2 ≤ 3 ∧ ([1, 1, 1, 0, 1, 2] : List ℝ).length = 3 * 2) ∧
    ∃ Q R, qr_impl Real.sqrt numeric_limits_min false (make_identity 3) [1, 1, 1, 0, 1, 2] 3 2
        default_tol = some (Q, R) ∧ Q.length = 3 * 3 ∧ R.length = 3 * 2 ∧
      ∀ i j, i < 3 → j < 2 →
        ([1, 1, 1, 0, 1, 2] : List ℝ).getD (j * 3 + i) 0 =
          ∑ k in Finset.range 3, Q.getD (i * 3 + k) 0 * R.getD (j * 3 + k) 0 :=
  ⟨⟨by decide, by decide, by simp⟩,
    qr_impl_accumulates_transpose [1, 1, 1, 0, 1, 2] 3 2 (by decide) (by decide) (by simp)
      default_tol⟩

/-- C16: the cleanup pass is exactly thresholding. For all `Q`, `R`, `n`, `p`, `tol`, the
run of `qr_impl` (resp. `qr_impl2`) with cleanup enabled is the run with cleanup disabled
whose `R` has every entry `v` with `|v| < tol` replaced by `0` and every other entry kept; the
`Q` produced is the same, and one run returns exactly when the other does. -/
theorem cleanup_is_thresholding (sqrt : ℝ → ℝ) (tiny : ℝ) (Q R : List ℝ) (n p : Nat)
    (tol : ℝ) :
    qr_impl sqrt tiny true Q R n p tol =
      (qr_impl sqrt tiny false Q R n p tol).map
        (fun st => (st.1, st.2.map fun v => if |v| < tol then 0 else v)) ∧
    qr_impl2 sqrt tiny true Q R n p tol =
      (qr_impl2 sqrt tiny false Q R n p tol).map
        (fun st => (st.1, st.2.map fun v => if |v| < tol then 0 else v)) := by
  constructor
  · unfold qr_impl
    cases forUp (fun j st => forDown (qr_impl_step sqrt tiny n p j) j (pred_size_t n) st) p
      (Q, R) with
    | none => rfl
    | some st => simp [cleanup_R]
  · unfold qr_impl2
    cases forUp (fun j st => forDown (qr_impl2_step sqrt tiny n p j) j (pred_size_t n) st) p
      (Q, R) with
    | none => rfl
    | some st => simp [cleanup_R]

/-- C17, on the code: the returned `R` is not the block of the swept working `R`. On
`X = [3, 4, 0, 5]`, `n = p = 2`, default tolerance: the `baseline` sweep computes the working
`R = [5, 0, 4, 3]` (entry `(0, 0)` is `5`), but the facade returns `R = [0, 0, 0, 0]`; the
`transpose` sweep computes the row-major working `R = [5, 4, 0, 3]` (entry `(0, 1)`, at
`R[0 * 2 + 1]`, is `4`), but the facade returns `R = [5, 4, 0, 3]`, whose position `(0, 1)`,
stored at `R[1 * 2 + 0]`, holds `0`. -/
theorem qr_decomposition_R_not_working_block :
    qr_impl Real.sqrt numeric_limits_min true (make_identity 2) [3, 4, 0, 5] 2 2 default_tol =
      some ([3 / 5, -4 / 5, 4 / 5, 3 / 5], [5, 0, 4, 3]) ∧
    qr_decomposition Real.sqrt numeric_limits_min QRImpl.baseline [3, 4, 0, 5] 2 2 default_tol =
      some ⟨[3 / 5, 4 / 5, -4 / 5, 3 / 5], [0, 0, 0, 0]⟩ ∧
    ([5, 0, 4, 3] : List ℝ)[0 * 2 + 0]? = some 5 ∧
    ([0, 0, 0, 0] : List ℝ)[0 * 2 + 0]? = some 0 ∧
    transpose_input ([3, 4, 0, 5] : List ℝ) (List.replicate 4 0) 2 2 = some [3, 0, 4, 5] ∧
    qr_impl2 Real.sqrt numeric_limits_min true (make_identity 2) [3, 0, 4, 5] 2 2 default_tol =
      some ([3 / 5, 4 / 5, -4 / 5, 3 / 5], [5, 4, 0, 3]) ∧
    qr_decomposition Real.sqrt numeric_limits_min QRImpl.transpose [3, 4, 0, 5] 2 2 default_tol =
      some ⟨[3 / 5, -4 / 5, 4 / 5, 3 / 5], [5, 4, 0, 3]⟩ ∧
    ([5, 4, 0, 3] : List ℝ)[0 * 2 + 1]? = some 4 ∧
    ([5, 4, 0, 3] : List ℝ)[1 * 2 + 0]? = some 0 ∧ (5 : ℝ) ≠ 0 ∧ (4 : ℝ) ≠ 0 := by
  refine ⟨qr_impl_3405, qr_decomposition_baseline_3405, by simp, by simp, ?_, qr_impl2_3405,
    qr_decomposition_transpose_3405, by simp, by simp, by norm_num, by norm_num⟩
  simp [transpose_input, forUp, write]

/-- C18: for every `p` and every vector `X` of length `p·p`, `transpose_square(X, p)` returns
a vector `X'` of the same length with `X'[i·p+j] = X[j·p+i]` for all `i, j < p`; the diagonal
is unchanged, and applying it a second time restores `X`. -/
theorem transpose_square_transposes (p : Nat) (X : List ℝ) (hX : X.length = p * p) :
    ∃ X', transpose_square X p = some X' ∧ X'.length = X.length ∧
      (∀ i j, i < p → j < p → X'.getD (i * p + j) 0 = X.getD (j * p + i) 0) ∧
      (∀ i, i < p → X'.getD (i * p + i) 0 = X.getD (i * p + i) 0) ∧
      transpose_square X' p = some X := by
  obtain ⟨X', hX', hl, hg⟩ := transpose_square_spec p X hX
  obtain ⟨X'', hX'', hl', hg'⟩ := transpose_square_spec p X' hl
  refine ⟨X', hX', by rw [hl, hX], hg, fun i hi => hg i i hi hi, ?_⟩
  rw [hX'']
  congr 1
  apply eq_of_square_getD p X'' X hl' hX
  intro i j hi hj
  rw [hg' i j hi hj, hg j i hj hi]

/-- Witness of C18 at the 2×2 matrix `[1, 2, 3, 4]`. -/
theorem transpose_square_transposes_witness :
    ([1, 2, 3, 4] : List ℝ).length = 2 * 2 ∧
    ∃ X', transpose_square ([1, 2, 3, 4] : List ℝ) 2 = some X' ∧
      X'.length = ([1, 2, 3, 4] : List ℝ).length ∧
      (∀ i j, i < 2 → j < 2 →
        X'.getD (i * 2 + j) 0 = ([1, 2, 3, 4] : List ℝ).getD (j * 2 + i) 0) ∧
      (∀ i, i < 2 → X'.getD (i * 2 + i) 0 = ([1, 2, 3, 4] : List ℝ).getD (i * 2 + i) 0) ∧
      transpose_square X' 2 = some [1, 2, 3, 4] :=
  ⟨by simp, transpose_square_transposes 2 [1, 2, 3, 4] (by simp)⟩

/-- C19, on the code: the value reported as expected is not the entry that was compared. On
`X = [0, 5, 7, 0]`, `Q = R = [0, 0, 0, 0]`, `n = p = 2`, the first failing pair is `i = 0`,
`j = 1`, where the computed sum `0` is compared with `X[1 * 2 + 0] = 7`; `validate_qr` reports
computed `0`, difference `7`, but expected `X[0 * 2 + 1] = 5`. -/
theorem validate_qr_reports_other_entry :
    validate_qr ([0, 5, 7, 0] : List ℝ) [0, 0, 0, 0] [0, 0, 0, 0] 2 2 =
      some (ValidateReport.mismatch 0 5 7 (numeric_limits_epsilon * 10 ^ 4) 2 2) ∧
    validate_entry ([0, 0, 0, 0] : List ℝ) [0, 0, 0, 0] 2 2 0 1 = some 0 ∧
    ([0, 5, 7, 0] : List ℝ)[1 * 2 + 0]? = some 7 ∧ (5 : ℝ) ≠ 7 := by
  have hpos : (0 : ℝ) < numeric_limits_epsilon * 10 ^ 4 := by
    unfold numeric_limits_epsilon; positivity
  have h0 : ¬ (numeric_limits_epsilon * 10 ^ 4 : ℝ) < 0 := not_lt.mpr hpos.le
  have h7 : (numeric_limits_epsilon * 10 ^ 4 : ℝ) < 7 := by
    unfold numeric_limits_epsilon; norm_num
  refine ⟨?_, by simp [validate_entry, forUp], by simp, by norm_num⟩
  simp [validate_qr, validate_entry, forUp, h0, h7]

/-- C20: for every `n ≥ p ≥ 1`, every `X` of length exactly `n·p` and every `tol`, no read
or write of `qr_decomposition` leaves its vector, in either variant: the input transposition,
the sweep (`qr_impl`, `qr_impl2`, with the unsigned countdown from `n - 1`), `transpose_square`
on `Q` and the compaction each return, and so does the call. -/
theorem qr_decomposition_index_safe (X : List ℝ) (n p : Nat) (hp : 0 < p) (hpn : p ≤ n)
    (hX : X.length = n * p) (tol : ℝ) :
    (∃ Qs Rs Qt st,
      qr_impl Real.sqrt numeric_limits_min true (make_identity n) X n p tol = some (Qs, Rs) ∧
      transpose_square Qs n = some Qt ∧
      compact_R (List.replicate X.length (0 : ℝ)) n p = some st ∧
      qr_decomposition Real.sqrt numeric_limits_min QRImpl.baseline X n p tol =
        some ⟨resize Qt (n * p), resize st.1 (p * p)⟩) ∧
    (∃ R0 Qs Rs Qt st,
      transpose_input X (List.replicate X.length 0) n p = some R0 ∧
      qr_impl2 Real.sqrt numeric_limits_min true (make_identity n) R0 n p tol = some (Qs, Rs) ∧
      transpose_square Qs n = some Qt ∧
      compact_R Rs n p = some st ∧
      qr_decomposition Real.sqrt numeric_limits_min QRImpl.transpose X n p tol =
        some ⟨resize Qt (n * p), resize st.1 (p * p)⟩) := by
  constructor
  · obtain ⟨Qs, Rs, Qt, hrun, _, _, _, hQt, _, _, _⟩ :=
      qr_decomposition_baseline_run numeric_limits_min numeric_limits_min_pos.le X n p hp hpn hX tol
    obtain ⟨st, hst, _⟩ := compact_R_spec n p hpn (List.replicate X.length (0 : ℝ))
      (by simp [hX])
    refine ⟨Qs, Rs, Qt, st, hrun, hQt, hst, ?_⟩
    unfold qr_decomposition
    simp only [hrun, Option.some_bind, hQt, hst]
  · obtain ⟨R0, Qs, Rs, Qt, Rc, hR0, _, _, hrun, _, _, _, hQt, _, _, hc, _, _, hres⟩ :=
      qr_decomposition_transpose_run numeric_limits_min numeric_limits_min_pos.le X n p hp hpn hX
        tol
    exact ⟨R0, Qs, Rs, Qt, (Rc, p * p), hR0, hrun, hQt, hc, hres⟩

/-- Witness of C20 at the 3×2 matrix with columns `(1, 1, 1)` and `(0, 1, 2)`. -/
theorem qr_decomposition_index_safe_witness :
    (0 < 2 ∧ 2 ≤ 3 ∧ ([1, 1, 1, 0, 1, 2] : List ℝ).length = 3 * 2) ∧
    ((∃ Qs Rs Qt st,
      qr_impl Real.sqrt numeric_limits_min true (make_identity 3) [1, 1, 1, 0, 1, 2] 3 2
        default_tol = some (Qs, Rs) ∧
      transpose_square Qs 3 = some Qt ∧
      compact_R (List.replicate ([1, 1, 1, 0, 1, 2] : List ℝ).length (0 : ℝ)) 3 2 = some st ∧
      qr_decomposition Real.sqrt numeric_limits_min QRImpl.baseline [1, 1, 1, 0, 1, 2] 3 2
        default_tol = some ⟨resize Qt (3 * 2), resize st.1 (2 * 2)⟩) ∧
    (∃ R0 Qs Rs Qt st,
      transpose_input ([1, 1, 1, 0, 1, 2] : List ℝ)
        (List.replicate ([1, 1, 1, 0, 1, 2] : List ℝ).length 0) 3 2 = some R0 ∧
      qr_impl2 Real.sqrt numeric_limits_min true (make_identity 3) R0 3 2 default_tol =
        some (Qs, Rs) ∧
      transpose_square Qs 3 = some Qt ∧
      compact_R Rs 3 2 = some st ∧
      qr_decomposition Real.sqrt numeric_limits_min QRImpl.transpose [1, 1, 1, 0, 1, 2] 3 2
        default_tol = some ⟨resize Qt (3 * 2), resize st.1 (2 * 2)⟩)) :=
  ⟨⟨by decide, by decide, by simp⟩,
    qr_decomposition_index_safe [1, 1, 1, 0, 1, 2] 3 2 (by decide) (by decide) (by simp)
      default_tol⟩

end tinyqr
